import Mathlib

/-!
# Voronoi tessellation session (`phd/mesh/tess.cpp`)

A shallow embedding of `Tess2d` and a verification of its specification.

Modelling conventions.

* The CGAL Delaunay triangulation is an external collaborator.  Its observable
  state is the record `Tess`: the integer `info()` stored in each vertex and,
  for each vertex handle, the edges met by one turn of the edge circulator.
  Point insertion is an oracle carried by `Kernel`.
* `double` is idealised as a linearly ordered field `α` (exact arithmetic, no
  rounding, no NaN); `std::sqrt` is a parameter `sqrt : α → α`, instantiated by
  `Real.sqrt` where a statement needs its properties and by
  `underflowing_sqrt` where the underflow of its argument matters.
* `int` is `Int`; the face counters stay far below `2^31` because they are
  bounded by the number of edges visited.
* Raw coordinate arrays `double* x[3]` are total maps from an index to a
  planar point.  Output arrays are the lists of the entries written, in the
  order of writing (entry `k` of the list is slot `k` of the array).
* A function returns `none` where the C++ has no defined result: a null
  `ptess`/`pvt_list`, a vertex table that is too short, or a `do … while`
  walk started on an empty circulator.
-/

set_option autoImplicit false

namespace Phd

/-- A planar point: a CGAL `Point`, or slot `k` of the coordinate arrays `(x[0][k], x[1][k])`. -/
structure Point (α : Type) where
  x : α
  y : α
  deriving DecidableEq, Repr

/-- The `CGAL::Object` returned by `tess.dual(edge)`: a `Segment_2` with its two
points `point(0)`, `point(1)`, a `Ray_2`, or anything else (a `Line_2`). -/
inductive Dual (α : Type) where
  | segment (p0 p1 : Point α)
  | ray
  | other
  deriving DecidableEq, Repr

/-- One position of an `Edge_circulator`.  `first_vertex` is the handle
`e.first->vertex((e.second+2)%3)` and `second_vertex` the handle
`e.first->vertex((e.second+1)%3)`. -/
structure Edge (α : Type) where
  is_infinite : Bool
  first_vertex : Nat
  second_vertex : Nat
  dual : Dual α
  deriving DecidableEq, Repr

/-- Observable state of the triangulation `Tess`: the points of the finite
vertices in handle order, the `info()` of every vertex handle and the edges of
one full turn of `incident_edges(v)`. -/
structure Tess (α : Type) where
  points : List (Point α)
  info : Nat → Int
  incident_edges : Nat → List (Edge α)

/-- The assignment `vt->info() = i`. -/
def Tess.set_info {α : Type} (tess : Tess α) (vt : Nat) (i : Int) : Tess α :=
  { tess with info := Function.update tess.info vt i }

/-- The geometry kernel as used by the session: `new Tess` and `tess.insert(p)`,
which gives the triangulation after the insertion and the vertex handle. -/
structure Kernel (α : Type) where
  new_tess : Tess α
  insert : Tess α → Point α → Tess α × Nat

/-- The members of `Tess2d`. -/
structure Tess2d (α : Type) where
  ptess : Option (Tess α)
  pvt_list : Option (List Nat)
  local_num_particles : Nat
  tot_num_particles : Nat

/-- Outcome of running a loop body over a sequence: a `return code` was executed
(with the loop variables at that moment), or the loop ran to its end. -/
inductive Flow (σ : Type) where
  | ret (code : Int) (s : σ)
  | go (s : σ)
  deriving DecidableEq, Repr

/-- The constructor `Tess2d::Tess2d`. -/
def Tess2d.init {α : Type} (local_num_particles tot_num_particles : Nat) : Tess2d α :=
  { ptess := none, pvt_list := none,
    local_num_particles := local_num_particles, tot_num_particles := tot_num_particles }

/-- The method `Tess2d::reset_tess`. -/
def reset_tess {α : Type} (self : Tess2d α) : Tess2d α :=
  { self with ptess := none, pvt_list := none }

/-! ## `count_number_of_faces` -/

/-- The `do … while` body of `count_number_of_faces` over the remaining edges of
the walk around generator `i`; the loop variable is `num_faces`. -/
def count_edges {α : Type} (tess : Tess α) (i : Nat) : List (Edge α) → Int → Flow Int
  | [], num_faces => Flow.go num_faces
  | ed :: rest, num_faces =>
    if ed.is_infinite then Flow.ret (-1) num_faces
    else
      match ed.dual with
      | Dual.segment _ _ =>
        if tess.info ed.first_vertex ≠ (i : Int) then Flow.ret (-1) num_faces
        else if tess.info ed.first_vertex < tess.info ed.second_vertex then
          count_edges tess i rest (num_faces + 1)
        else count_edges tess i rest num_faces
      | _ => Flow.ret (-1) num_faces

/-- The outer `for` loop of `count_number_of_faces` over the remaining generators. -/
def count_particles {α : Type} (tess : Tess α) (vt_list : List Nat) :
    List Nat → Int → Option Int
  | [], num_faces => some num_faces
  | i :: more, num_faces =>
    match vt_list[i]? with
    | none => none
    | some vi =>
      match tess.incident_edges vi with
      | [] => none
      | ed :: rest =>
        match count_edges tess i (ed :: rest) num_faces with
        | Flow.ret code _ => some code
        | Flow.go n => count_particles tess vt_list more n

/-- The method `Tess2d::count_number_of_faces`. -/
def count_number_of_faces {α : Type} (self : Tess2d α) : Option Int :=
  match self.ptess, self.pvt_list with
  | some tess, some vt_list =>
    count_particles tess vt_list (List.range self.local_num_particles) 0
  | _, _ => none

/-! ## `extract_geometry` -/

/-- One emitted face: slot `fc` of `face_area`, `face_n`, `face_com`, `pair_i`, `pair_j`. -/
structure FaceRecord (α : Type) where
  face_area : α
  face_n : Point α
  face_com : Point α
  pair_i : Int
  pair_j : Int
  deriving DecidableEq, Repr

/-- One written cell: slot `i` of `volume` and `dcom`. -/
structure CellRecord (α : Type) where
  volume : α
  dcom : Point α
  deriving DecidableEq, Repr

/-- Loop variables of the edge walk of `extract_geometry`: the accumulators
`cx`, `cy`, `vol` and the face arrays written so far (`fc` is their length). -/
structure Acc (α : Type) where
  cx : α
  cy : α
  vol : α
  faces : List (FaceRecord α)
  deriving DecidableEq, Repr

/-- What `extract_geometry` leaves behind: the returned `int` and the entries
written to the face arrays and to the cell arrays. -/
structure Extracted (α : Type) where
  code : Int
  faces : List (FaceRecord α)
  cells : List (CellRecord α)
  deriving DecidableEq, Repr

section Field

variable {α : Type} [LinearOrderedField α]

/-- The body of the `Segment_2` branch of `extract_geometry` for generator `i`
at `(xp, yp)`, neighbour tags `id1`, `id2` and Voronoi edge `p1 p2`. -/
def extract_segment (sqrt : α → α) (x : Int → Point α) (i : Nat) (id1 id2 : Int)
    (p1 p2 : Point α) (s : Acc α) : Acc α :=
  let xp := (x i).x
  let yp := (x i).y
  let xn := (x id2).x
  let x1 := p1.x
  let x2 := p2.x
  let yn := (x id2).y
  let y1 := p1.y
  let y2 := p2.y
  let xr := xn - xp
  let yr := yn - yp
  let h := sqrt (xr * xr + yr * yr)
  let xe := x2 - x1
  let ye := y2 - y1
  let area := sqrt (xe * xe + ye * ye)
  let fx := 0.5 * (x1 + x2)
  let fy := 0.5 * (y1 + y2)
  let tx := 2.0 * fx / 3.0 + xp / 3.0
  let ty := 2.0 * fy / 3.0 + yp / 3.0
  { vol := s.vol + 0.25 * area * h
    cx := s.cx + 0.25 * area * h * tx
    cy := s.cy + 0.25 * area * h * ty
    faces :=
      if id1 < id2 then
        s.faces ++ [{ face_area := area, face_n := ⟨xr / h, yr / h⟩, face_com := ⟨fx, fy⟩,
                      pair_i := id1, pair_j := id2 }]
      else s.faces }

/-- The `do … while` body of `extract_geometry` over the remaining edges of the
walk around generator `i`. -/
def extract_edges (sqrt : α → α) (tess : Tess α) (x : Int → Point α) (i : Nat) :
    List (Edge α) → Acc α → Flow (Acc α)
  | [], s => Flow.go s
  | ed :: rest, s =>
    if ed.is_infinite then Flow.ret (-1) s
    else
      match ed.dual with
      | Dual.segment p1 p2 =>
        extract_edges sqrt tess x i rest
          (extract_segment sqrt x i (tess.info ed.first_vertex) (tess.info ed.second_vertex)
            p1 p2 s)
      | _ => Flow.ret (-1) s

/-- The outer `for` loop of `extract_geometry` over the remaining generators;
the state is the face arrays and the cell arrays written so far. -/
def extract_particles (sqrt : α → α) (tess : Tess α) (vt_list : List Nat) (x : Int → Point α) :
    List Nat → List (FaceRecord α) → List (CellRecord α) → Option (Extracted α)
  | [], faces, cells => some { code := (faces.length : Int), faces := faces, cells := cells }
  | i :: more, faces, cells =>
    match vt_list[i]? with
    | none => none
    | some vi =>
      match tess.incident_edges vi with
      | [] => none
      | ed :: rest =>
        match extract_edges sqrt tess x i (ed :: rest)
            { cx := 0.0, cy := 0.0, vol := 0.0, faces := faces } with
        | Flow.ret code s => some { code := code, faces := s.faces, cells := cells }
        | Flow.go s =>
          extract_particles sqrt tess vt_list x more s.faces
            (cells ++ [{ volume := s.vol,
                         dcom := ⟨s.cx / s.vol - (x i).x, s.cy / s.vol - (x i).y⟩ }])

/-- The method `Tess2d::extract_geometry`. -/
def extract_geometry (sqrt : α → α) (self : Tess2d α) (x : Int → Point α) :
    Option (Extracted α) :=
  match self.ptess, self.pvt_list with
  | some tess, some vt_list =>
    extract_particles sqrt tess vt_list x (List.range self.local_num_particles) [] []
  | _, _ => none

/-! ## `build_initial_tess` -/

/-- The squared distance `(pj.x - pos.x)^2 + (pj.y - pos.y)^2` fed to `std::max`. -/
def sq_dist (pj pos : Point α) : α :=
  (pj.x - pos.x) * (pj.x - pos.x) + (pj.y - pos.y) * (pj.y - pos.y)

/-- The `do … while` body of `build_initial_tess` over the remaining edges of the
walk around generator `i` at `pos`; the loop variable is `radius_max_sq`. -/
def build_edges (tess : Tess α) (i : Nat) (pos : Point α) (huge : α) :
    List (Edge α) → α → Flow α
  | [], radius_max_sq => Flow.go radius_max_sq
  | ed :: rest, radius_max_sq =>
    if ed.is_infinite then build_edges tess i pos huge rest radius_max_sq
    else if tess.info ed.first_vertex ≠ (i : Int) then Flow.ret (-1) radius_max_sq
    else
      match ed.dual with
      | Dual.segment p0 p1 =>
        build_edges tess i pos huge rest
          (max (max radius_max_sq (sq_dist p0 pos)) (sq_dist p1 pos))
      | Dual.ray => build_edges tess i pos huge rest huge
      | Dual.other => build_edges tess i pos huge rest radius_max_sq

/-- The second `for` loop of `build_initial_tess` over the remaining generators;
the state is the `radius` entries written so far. -/
def build_particles (sqrt : α → α) (tess : Tess α) (vt_list : List Nat) (x : Int → Point α)
    (huge : α) : List Nat → List α → Option (Int × List α)
  | [], radius => some (0, radius)
  | i :: more, radius =>
    match vt_list[i]? with
    | none => none
    | some vi =>
      match tess.incident_edges vi with
      | [] => none
      | ed :: rest =>
        match build_edges tess i (x i) huge (ed :: rest) 0.0 with
        | Flow.ret code _ => some (code, radius)
        | Flow.go radius_max_sq =>
          build_particles sqrt tess vt_list x huge more (radius ++ [2.01 * sqrt radius_max_sq])

/-- The first `for` loop of `build_initial_tess`: insert particle `i`, tag its
vertex with `i`, store the handle in `vt_list[i]`. -/
def insert_locals (K : Kernel α) (x : Int → Point α) :
    List Nat → Tess α → List Nat → Tess α × List Nat
  | [], tess, vt_list => (tess, vt_list)
  | i :: more, tess, vt_list =>
    insert_locals K x more ((K.insert tess (x i)).1.set_info (K.insert tess (x i)).2 i)
      (vt_list ++ [(K.insert tess (x i)).2])

/-- What `build_initial_tess` leaves behind: the returned `int`, the session
and the `radius` entries written. -/
structure Built (α : Type) where
  code : Int
  self : Tess2d α
  radius : List α

/-- The method `Tess2d::build_initial_tess`. -/
def build_initial_tess (sqrt : α → α) (K : Kernel α) (self : Tess2d α) (x : Int → Point α)
    (num_particles : Nat) (huge : α) : Option (Built α) :=
  let built := insert_locals K x (List.range num_particles) K.new_tess []
  match build_particles sqrt built.1 built.2 x huge (List.range num_particles) [] with
  | none => none
  | some (code, radius) =>
    some { code := code
           self := { self with local_num_particles := num_particles
                               ptess := some built.1
                               pvt_list := some built.2 }
           radius := radius }

/-! ## `update_initial_tess` -/

/-- The insertion loop of `update_initial_tess`: insert each ghost and tag it with `j`, `j+1`, … -/
def insert_ghosts (K : Kernel α) : List (Point α) → Nat → Tess α → Tess α
  | [], _, tess => tess
  | p :: more, j, tess =>
    insert_ghosts K more (j + 1) ((K.insert tess p).1.set_info (K.insert tess p).2 j)

/-- The method `Tess2d::update_initial_tess`: the returned `int` and the session afterwards. -/
def update_initial_tess (K : Kernel α) (self : Tess2d α) (x : Int → Point α)
    (up_num_particles : Nat) : Option (Int × Tess2d α) :=
  match self.ptess with
  | none => none
  | some tess =>
    let start_num := self.local_num_particles
    let particles := (List.range' start_num up_num_particles).map (fun i => x (i : Int))
    some (0, { self with tot_num_particles := self.local_num_particles + up_num_particles
                         ptess := some (insert_ghosts K particles self.local_num_particles tess) })

end Field


/-! ## Vocabulary of the specification -/

/-- A dual that is a bounded segment. -/
def Dual.is_segment {α : Type} : Dual α → Bool
  | Dual.segment _ _ => true
  | _ => false

/-- The edges met by the walk around local generator `i`: `incident_edges(vt_list[i])`. -/
def walk {α : Type} (tess : Tess α) (vt_list : List Nat) (i : Nat) : List (Edge α) :=
  match vt_list[i]? with
  | some vi => tess.incident_edges vi
  | none => []

/-- An edge that `extract_geometry` processes without returning: finite, with a segment dual. -/
def Edge.closed {α : Type} (e : Edge α) : Bool := !e.is_infinite && e.dual.is_segment

/-- An edge that `count_number_of_faces` processes without returning: finite,
with a segment dual, and whose first tag is the generator `i` being walked. -/
def face_ok {α : Type} (tess : Tess α) (i : Nat) (e : Edge α) : Bool :=
  e.closed && decide (tess.info e.first_vertex = (i : Int))

/-- The test `id1 < id2` of an edge. -/
def counted {α : Type} (tess : Tess α) (e : Edge α) : Bool :=
  decide (tess.info e.first_vertex < tess.info e.second_vertex)

/-- The faces counted over the walks of the generators in `gens`. -/
def counted_total {α : Type} (tess : Tess α) (vt_list : List Nat) (gens : List Nat) : Nat :=
  (gens.map (fun i => (walk tess vt_list i).countP (counted tess))).sum

/-- The tags `id2` of the neighbours met by the walk around local generator `i`. -/
def nbr_tags {α : Type} (tess : Tess α) (vt_list : List Nat) (i : Nat) : List Int :=
  (walk tess vt_list i).map (fun e => tess.info e.second_vertex)

/-- The distinct unordered pairs `{a, b}`, `a ≠ b`, of adjacent generators of
which at least one is local: `b` is met by the walk around the local generator `a`. -/
def adjacent_pairs {α : Type} (tess : Tess α) (vt_list : List Nat) (N : Nat) :
    Finset (Sym2 Int) :=
  ((List.range N).flatMap (fun i =>
    ((nbr_tags tess vt_list i).filter (fun t => decide (t ≠ (i : Int)))).map
      (fun t => s((i : Int), t)))).toFinset

/-- The adapter contract of the geometry kernel, read on the walks of the `N`
local generators: the first tag of every edge walked around `i` is `i`; no
neighbour tag occurs twice in one walk; adjacency between local generators is
symmetric; every neighbour tag is a local index in `[0, N)` or a ghost tag
`≥ N`, that is, it is not negative. -/
def adapter_contract {α : Type} (tess : Tess α) (vt_list : List Nat) (N : Nat) : Prop :=
  (∀ i < N, ∀ e ∈ walk tess vt_list i, tess.info e.first_vertex = (i : Int)) ∧
  (∀ i < N, (nbr_tags tess vt_list i).Nodup) ∧
  (∀ i < N, ∀ j < N, (j : Int) ∈ nbr_tags tess vt_list i → (i : Int) ∈ nbr_tags tess vt_list j) ∧
  (∀ i < N, ∀ t ∈ nbr_tags tess vt_list i, (0 : Int) ≤ t)

/-- The unordered pairs counted from each local generator `i`: the neighbours
`t` of `i` with `i < t`. -/
def counted_pairs {α : Type} (tess : Tess α) (vt_list : List Nat) (N : Nat) :
    List (Sym2 Int) :=
  (List.range N).flatMap (fun i =>
    ((nbr_tags tess vt_list i).filter (fun t => decide ((i : Int) < t))).map
      (fun t => s((i : Int), t)))

section FieldSpec

variable {α : Type} [LinearOrderedField α]

/-- The effect of one edge of the walk of `extract_geometry` on the loop variables,
when the walk does not return at this edge. -/
def seg_step (sqrt : α → α) (tess : Tess α) (x : Int → Point α) (i : Nat)
    (s : Acc α) (e : Edge α) : Acc α :=
  match e.dual with
  | Dual.segment p1 p2 =>
    extract_segment sqrt x i (tess.info e.first_vertex) (tess.info e.second_vertex) p1 p2 s
  | _ => s

/-- Euclidean length `sqrt(dx*dx + dy*dy)` of the vector from `p` to `q`. -/
def dist_pts (sqrt : α → α) (p q : Point α) : α :=
  sqrt ((q.x - p.x) * (q.x - p.x) + (q.y - p.y) * (q.y - p.y))

/-- The term `0.25*area*h` that an edge adds to `vol`. -/
def edge_vol (sqrt : α → α) (tess : Tess α) (x : Int → Point α) (i : Nat) (e : Edge α) : α :=
  match e.dual with
  | Dual.segment p1 p2 =>
    0.25 * dist_pts sqrt p1 p2 * dist_pts sqrt (x i) (x (tess.info e.second_vertex))
  | _ => 0

/-- The term `0.25*area*h*tx` that an edge adds to `cx`. -/
def edge_cx (sqrt : α → α) (tess : Tess α) (x : Int → Point α) (i : Nat) (e : Edge α) : α :=
  match e.dual with
  | Dual.segment p1 p2 =>
    0.25 * dist_pts sqrt p1 p2 * dist_pts sqrt (x i) (x (tess.info e.second_vertex))
      * (2.0 * (0.5 * (p1.x + p2.x)) / 3.0 + (x i).x / 3.0)
  | _ => 0

/-- The term `0.25*area*h*ty` that an edge adds to `cy`. -/
def edge_cy (sqrt : α → α) (tess : Tess α) (x : Int → Point α) (i : Nat) (e : Edge α) : α :=
  match e.dual with
  | Dual.segment p1 p2 =>
    0.25 * dist_pts sqrt p1 p2 * dist_pts sqrt (x i) (x (tess.info e.second_vertex))
      * (2.0 * (0.5 * (p1.y + p2.y)) / 3.0 + (x i).y / 3.0)
  | _ => 0

/-- The face record an edge emits, if it emits one. -/
def edge_face (sqrt : α → α) (tess : Tess α) (x : Int → Point α) (i : Nat) (e : Edge α) :
    Option (FaceRecord α) :=
  match e.dual with
  | Dual.segment p1 p2 =>
    if tess.info e.first_vertex < tess.info e.second_vertex then
      some { face_area := dist_pts sqrt p1 p2
             face_n :=
               ⟨((x (tess.info e.second_vertex)).x - (x i).x)
                  / dist_pts sqrt (x i) (x (tess.info e.second_vertex)),
                ((x (tess.info e.second_vertex)).y - (x i).y)
                  / dist_pts sqrt (x i) (x (tess.info e.second_vertex))⟩
             face_com := ⟨0.5 * (p1.x + p2.x), 0.5 * (p1.y + p2.y)⟩
             pair_i := tess.info e.first_vertex
             pair_j := tess.info e.second_vertex }
    else none
  | _ => none

/-- The faces emitted along the walk of generator `i`. -/
def walk_faces (sqrt : α → α) (tess : Tess α) (vt_list : List Nat) (x : Int → Point α)
    (i : Nat) : List (FaceRecord α) :=
  (walk tess vt_list i).filterMap (edge_face sqrt tess x i)

/-- The value `vol` at the end of the walk of generator `i`. -/
def walk_vol (sqrt : α → α) (tess : Tess α) (vt_list : List Nat) (x : Int → Point α)
    (i : Nat) : α :=
  ((walk tess vt_list i).map (edge_vol sqrt tess x i)).sum

/-- The value `cx` at the end of the walk of generator `i`. -/
def walk_cx (sqrt : α → α) (tess : Tess α) (vt_list : List Nat) (x : Int → Point α)
    (i : Nat) : α :=
  ((walk tess vt_list i).map (edge_cx sqrt tess x i)).sum

/-- The value `cy` at the end of the walk of generator `i`. -/
def walk_cy (sqrt : α → α) (tess : Tess α) (vt_list : List Nat) (x : Int → Point α)
    (i : Nat) : α :=
  ((walk tess vt_list i).map (edge_cy sqrt tess x i)).sum

/-- The cell record written for generator `i` after its walk. -/
def walk_cell (sqrt : α → α) (tess : Tess α) (vt_list : List Nat) (x : Int → Point α)
    (i : Nat) : CellRecord α :=
  { volume := walk_vol sqrt tess vt_list x i
    dcom := ⟨walk_cx sqrt tess vt_list x i / walk_vol sqrt tess vt_list x i - (x i).x,
             walk_cy sqrt tess vt_list x i / walk_vol sqrt tess vt_list x i - (x i).y⟩ }

/-- The effect of one edge of the walk of `build_initial_tess` on `radius_max_sq`,
when the walk does not return at this edge. -/
def build_step (pos : Point α) (huge : α) (radius_max_sq : α) (e : Edge α) : α :=
  if e.is_infinite then radius_max_sq
  else
    match e.dual with
    | Dual.segment p0 p1 => max (max radius_max_sq (sq_dist p0 pos)) (sq_dist p1 pos)
    | Dual.ray => huge
    | Dual.other => radius_max_sq

/-- The squared distances from `pos` to the two endpoints of every segment dual
of the finite edges of a walk. -/
def endpoint_sq_dists (pos : Point α) (es : List (Edge α)) : List α :=
  es.flatMap (fun e =>
    if e.is_infinite then []
    else
      match e.dual with
      | Dual.segment p0 p1 => [sq_dist p0 pos, sq_dist p1 pos]
      | _ => [])

/-- The maximum of a list of squared distances, `0` for the empty list. -/
def max_sq_dist (ds : List α) : α := ds.foldr max 0

/-- The search radius written for generator `i` when its walk does not return. -/
def walk_radius (sqrt : α → α) (tess : Tess α) (vt_list : List Nat) (x : Int → Point α)
    (huge : α) (i : Nat) : α :=
  2.01 * sqrt ((walk tess vt_list i).foldl (build_step (x i) huge) 0)

/-- An edge at which `build_initial_tess` returns `-1`: finite, with a first tag other than `i`. -/
def owner_mismatch (tess : Tess α) (i : Nat) (e : Edge α) : Bool :=
  !e.is_infinite && decide (tess.info e.first_vertex ≠ (i : Int))

/-- The triangulation at the end of the insertion loop of `build_initial_tess`. -/
def built_tess (K : Kernel α) (x : Int → Point α) (N : Nat) : Tess α :=
  (insert_locals K x (List.range N) K.new_tess []).1

/-- The vertex table at the end of the insertion loop of `build_initial_tess`. -/
def built_vt_list (K : Kernel α) (x : Int → Point α) (N : Nat) : List Nat :=
  (insert_locals K x (List.range N) K.new_tess []).2

/-- A state that `build_initial_tess` (returning `0`) followed by
`update_initial_tess` leaves behind, for some kernel and inputs. -/
def reached_by_build_augment {α : Type} [LinearOrderedField α] (st : Tess2d α) : Prop :=
  ∃ (sqrt : α → α) (K : Kernel α) (st0 : Tess2d α) (x : Int → Point α) (N M : Nat) (huge : α)
    (b : Built α),
    build_initial_tess sqrt K st0 x N huge = some b ∧ b.code = 0 ∧
      update_initial_tess K b.self x M = some (0, st)

/-- Twice the signed area of the triangle `p`, `v`, `w`. -/
def turn (p v w : Point α) : α :=
  (v.x - p.x) * (w.y - p.y) - (v.y - p.y) * (w.x - p.x)

/-- The sides of the closed polygon with vertices `V` in order: each vertex
paired with its cyclic successor. -/
def sides (V : List (Point α)) : List (Point α × Point α) :=
  V.zip (V.rotate 1)

/-- The shoelace area of the polygon with vertices `V` in order. -/
def shoelace_area (V : List (Point α)) : α :=
  abs (((sides V).map (fun vw => vw.1.x * vw.2.y - vw.2.x * vw.1.y)).sum) / 2

/-- The point `v` lies on the perpendicular bisector of `p` and `pn`. -/
def on_bisector (p pn v : Point α) : Prop :=
  (v.x - (p.x + pn.x) / 2) * (pn.x - p.x) + (v.y - (p.y + pn.y) / 2) * (pn.y - p.y) = 0

/-- The edge `e` walked around the generator at `p` is the face on the side
`vw` of its cell: the dual of `e` is that side (in either direction), the
neighbour lies elsewhere than `p`, and both ends of the side lie on the
perpendicular bisector of `p` and the neighbour. -/
def is_cell_side (tess : Tess α) (x : Int → Point α) (p : Point α) (e : Edge α)
    (vw : Point α × Point α) : Prop :=
  (e.dual = Dual.segment vw.1 vw.2 ∨ e.dual = Dual.segment vw.2 vw.1) ∧
    x (tess.info e.second_vertex) ≠ p ∧
    on_bisector p (x (tess.info e.second_vertex)) vw.1 ∧
    on_bisector p (x (tess.info e.second_vertex)) vw.2

/-- The polygon `V` winds around `p` in one direction: `p` lies on the same
side of every side, as for a convex polygon that contains `p`. -/
def contains_generator (p : Point α) (V : List (Point α)) : Prop :=
  (∀ vw ∈ sides V, 0 ≤ turn p vw.1 vw.2) ∨ (∀ vw ∈ sides V, turn p vw.1 vw.2 ≤ 0)

/-- The points that `update_initial_tess` hands to `insert`: slots `N … N+M-1` of
the coordinate arrays. -/
def ghost_particles (x : Int → Point α) (N M : Nat) : List (Point α) :=
  (List.range' N M).map (fun i => x (i : Int))

/-- The triangulation at the start of each turn of the insertion loop of
`update_initial_tess`, and after the last turn. -/
def ghost_states (K : Kernel α) : List (Point α) → Nat → Tess α → List (Tess α)
  | [], _, tess => [tess]
  | p :: more, j, tess =>
    tess :: ghost_states K more (j + 1) ((K.insert tess p).1.set_info (K.insert tess p).2 j)

/-- A kernel whose `insert` returns a fresh vertex for each inserted point: the
triangulation starts without vertices, and an insertion adds the point as a
new vertex, returns its handle (the vertices are numbered in order of
creation) and leaves the `info()` of every vertex as it was. -/
def Kernel.fresh (K : Kernel α) : Prop :=
  K.new_tess.points = [] ∧
    ∀ (tess : Tess α) (p : Point α),
      (K.insert tess p).2 = tess.points.length ∧
      (K.insert tess p).1.points = tess.points ++ [p] ∧
      (K.insert tess p).1.info = tess.info

/-- The vector `face_area * face_n` that `extract_geometry` forms from the
`area` and the quotients `xr/h`, `yr/h` of one edge of the walk around `i`. -/
def edge_flux (sqrt : α → α) (tess : Tess α) (x : Int → Point α) (i : Nat) (e : Edge α) :
    Point α :=
  match e.dual with
  | Dual.segment p1 p2 =>
    ⟨dist_pts sqrt p1 p2 *
        (((x (tess.info e.second_vertex)).x - (x i).x)
          / dist_pts sqrt (x i) (x (tess.info e.second_vertex))),
      dist_pts sqrt p1 p2 *
        (((x (tess.info e.second_vertex)).y - (x i).y)
          / dist_pts sqrt (x i) (x (tess.info e.second_vertex)))⟩
  | _ => ⟨0, 0⟩

/-- The area centroid of the polygon with vertices `V` in order. -/
def polygon_centroid (V : List (Point α)) : Point α :=
  ⟨((sides V).map (fun vw =>
        (vw.1.x + vw.2.x) * (vw.1.x * vw.2.y - vw.2.x * vw.1.y))).sum
      / (3 * ((sides V).map (fun vw => vw.1.x * vw.2.y - vw.2.x * vw.1.y)).sum),
    ((sides V).map (fun vw =>
        (vw.1.y + vw.2.y) * (vw.1.x * vw.2.y - vw.2.x * vw.1.y))).sum
      / (3 * ((sides V).map (fun vw => vw.1.x * vw.2.y - vw.2.x * vw.1.y)).sum)⟩

end FieldSpec

/-! ## Sample point sets and kernels -/

/-- A computable square root on the rationals, exact on squares of rationals. -/
def rat_sqrt (q : ℚ) : ℚ := (Nat.sqrt q.num.toNat : ℚ) / (Nat.sqrt q.den : ℚ)

/-- A kernel over rational points whose walks are read from a table, indexed by
the number of vertices and the vertex handle.  Like CGAL, `insert` returns the
existing vertex when the point coincides with one already present. -/
def table_kernel (table : Nat → Nat → List (Edge ℚ)) : Kernel ℚ :=
  { new_tess := { points := [], info := fun _ => 0, incident_edges := table 0 }
    insert := fun tess p =>
      if p ∈ tess.points then (tess, tess.points.indexOf p)
      else
        ({ tess with points := tess.points ++ [p]
                     incident_edges := table (tess.points.length + 1) },
         tess.points.length) }

section Samples

variable {α : Type} [LinearOrderedField α]

/-- A kernel whose walks are read from a table, indexed by the number of
vertices and the vertex handle, and whose `insert` always creates a vertex. -/
def fresh_kernel (table : Nat → Nat → List (Edge α)) : Kernel α :=
  { new_tess := { points := [], info := fun _ => 0, incident_edges := table 0 }
    insert := fun tess p =>
      ({ tess with points := tess.points ++ [p]
                   incident_edges := table (tess.points.length + 1) },
       tess.points.length) }

/-- Coordinates of the four generators `(0,0)`, `(2,0)`, `(0,2)`, `(-2,-2)`: the
first lies inside the triangle of the other three. -/
def star_x (k : Int) : Point α :=
  if k = 0 then ⟨0, 0⟩ else if k = 1 then ⟨2, 0⟩ else if k = 2 then ⟨0, 2⟩ else ⟨-2, -2⟩

/-- Walks of the Delaunay triangulation of the four points of `star_x`: the
cell of `(0,0)` is the triangle `(1,1)`, `(-3,1)`, `(1,-3)`; the three hull
edges have rays as duals. -/
def star_table : Nat → Nat → List (Edge α)
  | 4, 0 =>
    [⟨false, 0, 1, Dual.segment ⟨1, -3⟩ ⟨1, 1⟩⟩,
     ⟨false, 0, 2, Dual.segment ⟨1, 1⟩ ⟨-3, 1⟩⟩,
     ⟨false, 0, 3, Dual.segment ⟨-3, 1⟩ ⟨1, -3⟩⟩]
  | 4, 1 =>
    [⟨false, 1, 2, Dual.ray⟩,
     ⟨false, 1, 0, Dual.segment ⟨1, 1⟩ ⟨1, -3⟩⟩,
     ⟨false, 1, 3, Dual.ray⟩,
     ⟨true, 1, 4, Dual.other⟩]
  | 4, 2 =>
    [⟨false, 2, 3, Dual.ray⟩,
     ⟨false, 2, 0, Dual.segment ⟨-3, 1⟩ ⟨1, 1⟩⟩,
     ⟨false, 2, 1, Dual.ray⟩,
     ⟨true, 2, 4, Dual.other⟩]
  | 4, 3 =>
    [⟨false, 3, 1, Dual.ray⟩,
     ⟨false, 3, 0, Dual.segment ⟨1, -3⟩ ⟨-3, 1⟩⟩,
     ⟨false, 3, 2, Dual.ray⟩,
     ⟨true, 3, 4, Dual.other⟩]
  | _, _ => []

/-- One local generator at the origin, tagged `0`, and four ghosts `(2,0)`,
`(0,2)`, `(-2,0)`, `(0,-2)`, tagged `1 … 4`: the cell is the square with
corners `(±1, ±1)`. -/
def square_tess : Tess α :=
  { points := [⟨0, 0⟩, ⟨2, 0⟩, ⟨0, 2⟩, ⟨-2, 0⟩, ⟨0, -2⟩]
    info := fun h => (h : Int)
    incident_edges := fun h =>
      if h = 0 then
        [⟨false, 0, 1, Dual.segment ⟨1, -1⟩ ⟨1, 1⟩⟩,
         ⟨false, 0, 2, Dual.segment ⟨1, 1⟩ ⟨-1, 1⟩⟩,
         ⟨false, 0, 3, Dual.segment ⟨-1, 1⟩ ⟨-1, -1⟩⟩,
         ⟨false, 0, 4, Dual.segment ⟨-1, -1⟩ ⟨1, -1⟩⟩]
      else [] }

/-- The session of `square_tess`. -/
def square_session : Tess2d α :=
  { ptess := some square_tess, pvt_list := some [0],
    local_num_particles := 1, tot_num_particles := 5 }

/-- The coordinate arrays of `square_tess`. -/
def square_x (k : Int) : Point α :=
  if k = 0 then ⟨0, 0⟩ else if k = 1 then ⟨2, 0⟩ else if k = 2 then ⟨0, 2⟩
  else if k = 3 then ⟨-2, 0⟩ else ⟨0, -2⟩

/-- The corners of the cell of `square_tess`, counter-clockwise. -/
def square_polygon : List (Point α) :=
  [⟨1, -1⟩, ⟨1, 1⟩, ⟨-1, 1⟩, ⟨-1, -1⟩]

end Samples

/-- Walks for the point set `(0,0), (2,0), (1,2), (1,-2), (-2,0), (4,0)` (handles
`0 … 5`): with the first two points alone the triangulation is one-dimensional;
with all six the cells of `(0,0)` and `(2,0)` are closed quadrilaterals. -/
def six_point_table : Nat → Nat → List (Edge ℚ)
  | 2, 0 => [⟨false, 0, 1, Dual.other⟩, ⟨true, 0, 0, Dual.other⟩]
  | 2, 1 => [⟨true, 1, 1, Dual.other⟩, ⟨false, 1, 0, Dual.other⟩]
  | 6, 0 =>
    [⟨false, 0, 1, Dual.segment ⟨1, -3/4⟩ ⟨1, 3/4⟩⟩,
     ⟨false, 0, 2, Dual.segment ⟨1, 3/4⟩ ⟨-1, 7/4⟩⟩,
     ⟨false, 0, 4, Dual.segment ⟨-1, 7/4⟩ ⟨-1, -7/4⟩⟩,
     ⟨false, 0, 3, Dual.segment ⟨-1, -7/4⟩ ⟨1, -3/4⟩⟩]
  | 6, 1 =>
    [⟨false, 1, 5, Dual.segment ⟨3, -7/4⟩ ⟨3, 7/4⟩⟩,
     ⟨false, 1, 2, Dual.segment ⟨3, 7/4⟩ ⟨1, 3/4⟩⟩,
     ⟨false, 1, 0, Dual.segment ⟨1, 3/4⟩ ⟨1, -3/4⟩⟩,
     ⟨false, 1, 3, Dual.segment ⟨1, -3/4⟩ ⟨3, -7/4⟩⟩]
  | _, _ => []

/-- Coordinate arrays with two local generators `(0,0)`, `(2,0)` and the four
ghosts `(1,2)`, `(1,-2)`, `(-2,0)`, `(4,0)` that close their cells. -/
def six_point_x (k : Int) : Point ℚ :=
  if k = 0 then ⟨0, 0⟩ else if k = 1 then ⟨2, 0⟩ else if k = 2 then ⟨1, 2⟩
  else if k = 3 then ⟨1, -2⟩ else if k = 4 then ⟨-2, 0⟩ else ⟨4, 0⟩

/-- The session after `build_initial_tess` on the two local generators of `six_point_x`. -/
def six_point_built : Tess2d ℚ :=
  { ptess := some (insert_locals (table_kernel six_point_table) six_point_x
      (List.range 2) (table_kernel six_point_table).new_tess []).1
    pvt_list := some (insert_locals (table_kernel six_point_table) six_point_x
      (List.range 2) (table_kernel six_point_table).new_tess []).2
    local_num_particles := 2
    tot_num_particles := 0 }

/-- The triangulation of the six points of `six_point_x`, tagged `0 … 5`. -/
def closed_pair_tess : Tess ℚ :=
  insert_ghosts (table_kernel six_point_table)
    ((List.range' 2 4).map (fun i => six_point_x (i : Int))) 2
    (insert_locals (table_kernel six_point_table) six_point_x (List.range 2)
      (table_kernel six_point_table).new_tess []).1

/-- The session with two local generators whose cells are closed by four ghosts. -/
def closed_pair : Tess2d ℚ :=
  { ptess := some closed_pair_tess, pvt_list := some [0, 1],
    local_num_particles := 2, tot_num_particles := 6 }

/-- What `extract_geometry` leaves behind on `closed_pair`, with `rat_sqrt` for `std::sqrt`. -/
def closed_pair_extracted : Extracted ℚ :=
  (extract_geometry rat_sqrt closed_pair six_point_x).getD ⟨-1, [], []⟩

/-- Coordinate arrays with two local generators `(0,0)`, `(2,0)` and five ghosts,
the first of which (index `2`) lies on local generator `0`. -/
def ghost_on_local_x (k : Int) : Point ℚ :=
  if k = 0 then ⟨0, 0⟩ else if k = 1 then ⟨2, 0⟩ else if k = 2 then ⟨0, 0⟩
  else if k = 3 then ⟨1, 2⟩ else if k = 4 then ⟨1, -2⟩ else if k = 5 then ⟨-2, 0⟩
  else ⟨4, 0⟩

/-- The session after `build_initial_tess` on the two local generators of `ghost_on_local_x`. -/
def ghost_on_local_built : Tess2d ℚ :=
  { ptess := some (insert_locals (table_kernel six_point_table) ghost_on_local_x
      (List.range 2) (table_kernel six_point_table).new_tess []).1
    pvt_list := some (insert_locals (table_kernel six_point_table) ghost_on_local_x
      (List.range 2) (table_kernel six_point_table).new_tess []).2
    local_num_particles := 2
    tot_num_particles := 0 }

/-- The session after `update_initial_tess` with the five ghosts of `ghost_on_local_x`. -/
def ghost_on_local : Tess2d ℚ :=
  { ghost_on_local_built with
    tot_num_particles := 7
    ptess := ghost_on_local_built.ptess.map
      (insert_ghosts (table_kernel six_point_table)
        ((List.range' 2 5).map (fun i => ghost_on_local_x (i : Int))) 2) }

/-- Coordinate arrays at a second call of `update_initial_tess`: slots `2`, `3`
now hold the ghosts `(-2,0)`, `(4,0)`. -/
def second_batch_x (k : Int) : Point ℚ :=
  if k = 2 then ⟨-2, 0⟩ else if k = 3 then ⟨4, 0⟩ else six_point_x k

/-- The session after a first `update_initial_tess` with the two ghosts `(1,2)`, `(1,-2)`. -/
def once_augmented : Tess2d ℚ :=
  { six_point_built with
    tot_num_particles := 4
    ptess := six_point_built.ptess.map
      (insert_ghosts (table_kernel six_point_table)
        ((List.range' 2 2).map (fun i => six_point_x (i : Int))) 2) }

/-- The session after a second `update_initial_tess` with the two ghosts
`(-2,0)`, `(4,0)`: they receive the tags `2`, `3` a second time. -/
def twice_augmented : Tess2d ℚ :=
  { once_augmented with
    tot_num_particles := 4
    ptess := once_augmented.ptess.map
      (insert_ghosts (table_kernel six_point_table)
        ((List.range' 2 2).map (fun i => second_batch_x (i : Int))) 2) }

/-- What `build_initial_tess` leaves behind on the four generators of `star_x`,
with `rat_sqrt` for `std::sqrt` and `huge = 100`. -/
def star_built : Built ℚ :=
  (build_initial_tess rat_sqrt (fresh_kernel star_table) (Tess2d.init 0 0) star_x 4 100).getD
    ⟨-1, Tess2d.init 0 0, []⟩

/-- The walks of `star_table` with the walk of generator `1` in another order. -/
def star_table_reordered {α : Type} [LinearOrderedField α] : Nat → Nat → List (Edge α)
  | 4, 1 =>
    [⟨false, 1, 0, Dual.segment ⟨1, 1⟩ ⟨1, -3⟩⟩,
     ⟨true, 1, 4, Dual.other⟩,
     ⟨false, 1, 3, Dual.ray⟩,
     ⟨false, 1, 2, Dual.ray⟩]
  | n, h => star_table n h

/-- What `build_initial_tess` leaves behind on the four generators of `star_x`
when the kernel walks follow `star_table_reordered`. -/
def star_built_reordered : Built ℚ :=
  (build_initial_tess rat_sqrt (fresh_kernel star_table_reordered) (Tess2d.init 0 0) star_x 4
    100).getD ⟨-1, Tess2d.init 0 0, []⟩

section UnitSquare

variable {α : Type} [LinearOrderedField α]

/-- Coordinates of the four corners `(0,0)`, `(1,0)`, `(1,1)`, `(0,1)` of the unit square. -/
def unit_square_x (k : Int) : Point α :=
  if k = 0 then ⟨0, 0⟩ else if k = 1 then ⟨1, 0⟩ else if k = 2 then ⟨1, 1⟩ else ⟨0, 1⟩

/-- Modelled from the spec: the answers of the geometry kernel, which is not
part of the sources, for the four corners of the unit square and no other
point.  The Delaunay triangulation has the two triangles on either side of the
diagonal `(0,0)`–`(1,1)`; the dual of the diagonal is the segment that starts
and ends at the only Voronoi vertex `(0.5, 0.5)`; the dual of each of the four
hull edges is a ray; every corner also touches the infinite vertex (handle `4`). -/
def unit_square_table : Nat → Nat → List (Edge α)
  | 4, 0 =>
    [⟨false, 0, 1, Dual.ray⟩,
     ⟨false, 0, 2, Dual.segment ⟨1 / 2, 1 / 2⟩ ⟨1 / 2, 1 / 2⟩⟩,
     ⟨false, 0, 3, Dual.ray⟩,
     ⟨true, 0, 4, Dual.other⟩]
  | 4, 1 =>
    [⟨false, 1, 2, Dual.ray⟩,
     ⟨false, 1, 0, Dual.ray⟩,
     ⟨true, 1, 4, Dual.other⟩]
  | 4, 2 =>
    [⟨false, 2, 3, Dual.ray⟩,
     ⟨false, 2, 0, Dual.segment ⟨1 / 2, 1 / 2⟩ ⟨1 / 2, 1 / 2⟩⟩,
     ⟨false, 2, 1, Dual.ray⟩,
     ⟨true, 2, 4, Dual.other⟩]
  | 4, 3 =>
    [⟨false, 3, 0, Dual.ray⟩,
     ⟨false, 3, 2, Dual.ray⟩,
     ⟨true, 3, 4, Dual.other⟩]
  | _, _ => []

/-- The answers a kernel gives for the corners of the unit square, whatever
the diagonal and the starting edge of each walk: around each corner `i` the
walk is not empty, every finite edge carries the tag `i`, some finite edge has
a ray as dual, and every segment dual starts and ends at `(0.5, 0.5)`. -/
def unit_square_answers (tess : Tess α) (vt_list : List Nat) : Prop :=
  ∀ i < 4, walk tess vt_list i ≠ [] ∧
    (∀ e ∈ walk tess vt_list i, e.is_infinite = false → tess.info e.first_vertex = (i : Int)) ∧
    (∃ e ∈ walk tess vt_list i, e.is_infinite = false ∧ e.dual = Dual.ray) ∧
    (∀ e ∈ walk tess vt_list i, e.dual.is_segment = true →
      e.dual = Dual.segment ⟨1 / 2, 1 / 2⟩ ⟨1 / 2, 1 / 2⟩)

end UnitSquare

/-! ## Lemmas on the loops -/

section Lemmas

variable {α : Type}

theorem count_edges_go (tess : Tess α) (i : Nat) :
    ∀ (es : List (Edge α)) (n : Int), (∀ e ∈ es, face_ok tess i e = true) →
      count_edges tess i es n = Flow.go (n + (es.countP (counted tess) : Nat)) := by
  intro es
  induction es with
  | nil => intro n _; simp [count_edges]
  | cons ed rest ih =>
    intro n h
    have hed := h ed (List.mem_cons_self _ _)
    have hrest : ∀ e ∈ rest, face_ok tess i e = true :=
      fun e he => h e (List.mem_cons_of_mem _ he)
    simp only [face_ok, Edge.closed, Bool.and_eq_true, Bool.not_eq_true', decide_eq_true_eq] at hed
    obtain ⟨⟨hinf, hseg⟩, hown⟩ := hed
    unfold count_edges
    cases hd : ed.dual with
    | segment p0 p1 =>
      by_cases hlt : (i : Int) < tess.info ed.second_vertex
      · simp [hinf, hown, hlt, ih _ hrest, counted, List.countP_cons]
        ring
      · simp [hinf, hown, hlt, ih _ hrest, counted, List.countP_cons]
    | ray => simp [hd, Dual.is_segment] at hseg
    | other => simp [hd, Dual.is_segment] at hseg

theorem count_edges_ret (tess : Tess α) (i : Nat) :
    ∀ (es : List (Edge α)) (n : Int), (∃ e ∈ es, face_ok tess i e = false) →
      ∃ s, count_edges tess i es n = Flow.ret (-1) s := by
  intro es
  induction es with
  | nil => intro n h; obtain ⟨e, he, _⟩ := h; cases he
  | cons ed rest ih =>
    intro n h
    unfold count_edges
    by_cases hinf : ed.is_infinite = true
    · exact ⟨n, by simp [hinf]⟩
    · cases hd : ed.dual with
      | segment p0 p1 =>
        by_cases hown : tess.info ed.first_vertex = (i : Int)
        · have hok : face_ok tess i ed = true := by
            simp [face_ok, Edge.closed, hinf, hd, Dual.is_segment, hown]
          have hrest : ∃ e ∈ rest, face_ok tess i e = false := by
            obtain ⟨e, he, hbad⟩ := h
            rcases List.mem_cons.1 he with rfl | he
            · rw [hok] at hbad; cases hbad
            · exact ⟨e, he, hbad⟩
          by_cases hlt : (i : Int) < tess.info ed.second_vertex
          · obtain ⟨s, hs⟩ := ih (n + 1) hrest
            exact ⟨s, by simp [hinf, hown, hlt, hs]⟩
          · obtain ⟨s, hs⟩ := ih n hrest
            exact ⟨s, by simp [hinf, hown, hlt, hs]⟩
        · exact ⟨n, by simp [hinf, hown]⟩
      | ray => exact ⟨n, by simp [hinf]⟩
      | other => exact ⟨n, by simp [hinf]⟩

theorem walk_eq (tess : Tess α) {vt_list : List Nat} {i vi : Nat}
    (h : vt_list[i]? = some vi) : walk tess vt_list i = tess.incident_edges vi := by
  simp [walk, h]

theorem walk_eq_nil {tess : Tess α} {vt_list : List Nat} {i : Nat}
    (h : vt_list[i]? = none) : walk tess vt_list i = [] := by
  simp [walk, h]

theorem count_particles_go (tess : Tess α) (vt_list : List Nat) :
    ∀ (gens : List Nat) (n : Int),
      (∀ i ∈ gens, walk tess vt_list i ≠ [] ∧ ∀ e ∈ walk tess vt_list i, face_ok tess i e = true) →
      count_particles tess vt_list gens n = some (n + (counted_total tess vt_list gens : Nat)) := by
  intro gens
  induction gens with
  | nil => intro n _; simp [count_particles, counted_total]
  | cons i more ih =>
    intro n h
    obtain ⟨hne, hok⟩ := h i (List.mem_cons_self _ _)
    have hmore := fun j hj => h j (List.mem_cons_of_mem _ hj)
    unfold count_particles
    cases hv : vt_list[i]? with
    | none => exact absurd (walk_eq_nil hv) hne
    | some vi =>
      rw [walk_eq _ hv] at hne hok
      cases hw : tess.incident_edges vi with
      | nil => exact absurd hw hne
      | cons ed rest =>
        rw [hw] at hok
        simp only [count_edges_go tess i (ed :: rest) n hok, ih _ hmore, counted_total,
          List.map_cons, List.sum_cons, walk_eq _ hv, hw]
        push_cast
        ring_nf

theorem count_particles_nonneg (tess : Tess α) (vt_list : List Nat) :
    ∀ (gens : List Nat) (n c : Int), count_particles tess vt_list gens n = some c → 0 ≤ c →
      ∀ i ∈ gens, walk tess vt_list i ≠ [] ∧ ∀ e ∈ walk tess vt_list i, face_ok tess i e = true := by
  intro gens
  induction gens with
  | nil => intro n c _ _ i hi; cases hi
  | cons i more ih =>
    intro n c h hc
    unfold count_particles at h
    cases hv : vt_list[i]? with
    | none => simp [hv] at h
    | some vi =>
      cases hw : tess.incident_edges vi with
      | nil => simp [hv, hw] at h
      | cons ed rest =>
        simp only [hv, hw] at h
        by_cases hall : ∀ e ∈ ed :: rest, face_ok tess i e = true
        · rw [count_edges_go tess i _ n hall] at h
          have ih2 := ih _ c h hc
          intro j hj
          rcases List.mem_cons.1 hj with rfl | hj
          · rw [walk_eq _ hv, hw]
            exact ⟨by simp, hall⟩
          · exact ih2 j hj
        · have hbad : ∃ e ∈ ed :: rest, face_ok tess i e = false := by
            by_contra hcon
            apply hall
            intro e he
            by_contra hne
            exact hcon ⟨e, he, by simpa using hne⟩
          obtain ⟨s, hs⟩ := count_edges_ret tess i _ n hbad
          rw [hs] at h
          simp only [Option.some.injEq] at h
          omega

theorem count_particles_code (tess : Tess α) (vt_list : List Nat) :
    ∀ (gens : List Nat) (n c : Int), count_particles tess vt_list gens n = some c →
      c = -1 ∨ c = n + (counted_total tess vt_list gens : Nat) := by
  intro gens
  induction gens with
  | nil => intro n c h; right; simpa [count_particles, counted_total, eq_comm] using h
  | cons i more ih =>
    intro n c h
    unfold count_particles at h
    cases hv : vt_list[i]? with
    | none => simp [hv] at h
    | some vi =>
      cases hw : tess.incident_edges vi with
      | nil => simp [hv, hw] at h
      | cons ed rest =>
        simp only [hv, hw] at h
        by_cases hall : ∀ e ∈ ed :: rest, face_ok tess i e = true
        · rw [count_edges_go tess i _ n hall] at h
          rcases ih _ c h with h1 | h1
          · exact Or.inl h1
          · right
            rw [h1]
            simp only [counted_total, List.map_cons, List.sum_cons, walk_eq _ hv, hw]
            push_cast
            ring
        · have hbad : ∃ e ∈ ed :: rest, face_ok tess i e = false := by
            by_contra hcon
            apply hall
            intro e he
            by_contra hne
            exact hcon ⟨e, he, by simpa using hne⟩
          obtain ⟨s, hs⟩ := count_edges_ret tess i _ n hbad
          rw [hs] at h
          simp only [Option.some.injEq] at h
          exact Or.inl h.symm
end Lemmas

section FieldLemmas

variable {α : Type} [LinearOrderedField α]

theorem zero_lit : (0.0 : α) = 0 := by norm_num

theorem extract_edges_go (sqrt : α → α) (tess : Tess α) (x : Int → Point α) (i : Nat) :
    ∀ (es : List (Edge α)) (s : Acc α), (∀ e ∈ es, e.closed = true) →
      extract_edges sqrt tess x i es s = Flow.go (es.foldl (seg_step sqrt tess x i) s) := by
  intro es
  induction es with
  | nil => intro s _; simp [extract_edges]
  | cons ed rest ih =>
    intro s h
    have hed := h ed (List.mem_cons_self _ _)
    have hrest : ∀ e ∈ rest, e.closed = true := fun e he => h e (List.mem_cons_of_mem _ he)
    simp only [Edge.closed, Bool.and_eq_true, Bool.not_eq_true'] at hed
    obtain ⟨hinf, hseg⟩ := hed
    unfold extract_edges
    cases hd : ed.dual with
    | segment p0 p1 => simp [hinf, ih _ hrest, seg_step, hd]
    | ray => simp [hd, Dual.is_segment] at hseg
    | other => simp [hd, Dual.is_segment] at hseg

theorem extract_edges_ret (sqrt : α → α) (tess : Tess α) (x : Int → Point α) (i : Nat) :
    ∀ (es : List (Edge α)) (s : Acc α), (∃ e ∈ es, e.closed = false) →
      ∃ s1, extract_edges sqrt tess x i es s = Flow.ret (-1) s1 := by
  intro es
  induction es with
  | nil => intro s h; obtain ⟨e, he, _⟩ := h; cases he
  | cons ed rest ih =>
    intro s h
    unfold extract_edges
    by_cases hinf : ed.is_infinite = true
    · exact ⟨s, by simp [hinf]⟩
    · cases hd : ed.dual with
      | segment p0 p1 =>
        have hok : ed.closed = true := by simp [Edge.closed, hinf, hd, Dual.is_segment]
        have hrest : ∃ e ∈ rest, e.closed = false := by
          obtain ⟨e, he, hbad⟩ := h
          rcases List.mem_cons.1 he with rfl | he
          · rw [hok] at hbad; cases hbad
          · exact ⟨e, he, hbad⟩
        obtain ⟨s1, hs1⟩ := ih (extract_segment sqrt x i (tess.info ed.first_vertex)
          (tess.info ed.second_vertex) p0 p1 s) hrest
        exact ⟨s1, by simp [hinf, hs1]⟩
      | ray => exact ⟨s, by simp [hinf]⟩
      | other => exact ⟨s, by simp [hinf]⟩

theorem foldl_seg_step_vol (sqrt : α → α) (tess : Tess α) (x : Int → Point α) (i : Nat) :
    ∀ (es : List (Edge α)) (s : Acc α),
      (es.foldl (seg_step sqrt tess x i) s).vol = s.vol + (es.map (edge_vol sqrt tess x i)).sum := by
  intro es
  induction es with
  | nil => intro s; simp
  | cons ed rest ih =>
    intro s
    rw [List.foldl_cons, ih]
    cases hd : ed.dual <;>
      simp [seg_step, edge_vol, hd, extract_segment, dist_pts, add_assoc]

theorem foldl_seg_step_cx (sqrt : α → α) (tess : Tess α) (x : Int → Point α) (i : Nat) :
    ∀ (es : List (Edge α)) (s : Acc α),
      (es.foldl (seg_step sqrt tess x i) s).cx = s.cx + (es.map (edge_cx sqrt tess x i)).sum := by
  intro es
  induction es with
  | nil => intro s; simp
  | cons ed rest ih =>
    intro s
    rw [List.foldl_cons, ih]
    cases hd : ed.dual <;>
      simp [seg_step, edge_cx, hd, extract_segment, dist_pts, add_assoc]

theorem foldl_seg_step_cy (sqrt : α → α) (tess : Tess α) (x : Int → Point α) (i : Nat) :
    ∀ (es : List (Edge α)) (s : Acc α),
      (es.foldl (seg_step sqrt tess x i) s).cy = s.cy + (es.map (edge_cy sqrt tess x i)).sum := by
  intro es
  induction es with
  | nil => intro s; simp
  | cons ed rest ih =>
    intro s
    rw [List.foldl_cons, ih]
    cases hd : ed.dual <;>
      simp [seg_step, edge_cy, hd, extract_segment, dist_pts, add_assoc]

theorem foldl_seg_step_faces (sqrt : α → α) (tess : Tess α) (x : Int → Point α) (i : Nat) :
    ∀ (es : List (Edge α)) (s : Acc α),
      (es.foldl (seg_step sqrt tess x i) s).faces
        = s.faces ++ es.filterMap (edge_face sqrt tess x i) := by
  intro es
  induction es with
  | nil => intro s; simp
  | cons ed rest ih =>
    intro s
    rw [List.foldl_cons, ih]
    cases hd : ed.dual with
    | segment p1 p2 =>
      by_cases hlt : tess.info ed.first_vertex < tess.info ed.second_vertex
      · simp [seg_step, edge_face, hd, extract_segment, dist_pts, hlt, List.filterMap_cons]
      · simp [seg_step, edge_face, hd, extract_segment, dist_pts, hlt, List.filterMap_cons]
    | ray => simp [seg_step, edge_face, hd, List.filterMap_cons]
    | other => simp [seg_step, edge_face, hd, List.filterMap_cons]

omit [LinearOrderedField α] in
theorem exists_closed_false {es : List (Edge α)} (h : ¬ ∀ e ∈ es, e.closed = true) :
    ∃ e ∈ es, e.closed = false := by
  by_contra hcon
  apply h
  intro e he
  by_contra hne
  exact hcon ⟨e, he, by simpa using hne⟩

theorem extract_particles_go (sqrt : α → α) (tess : Tess α) (vt_list : List Nat)
    (x : Int → Point α) :
    ∀ (gens : List Nat) (faces : List (FaceRecord α)) (cells : List (CellRecord α)),
      (∀ i ∈ gens, walk tess vt_list i ≠ [] ∧ ∀ e ∈ walk tess vt_list i, e.closed = true) →
      extract_particles sqrt tess vt_list x gens faces cells =
        some { code := ((faces ++ gens.flatMap (walk_faces sqrt tess vt_list x)).length : Int)
               faces := faces ++ gens.flatMap (walk_faces sqrt tess vt_list x)
               cells := cells ++ gens.map (walk_cell sqrt tess vt_list x) } := by
  intro gens
  induction gens with
  | nil => intro faces cells _; simp [extract_particles]
  | cons i more ih =>
    intro faces cells h
    obtain ⟨hne, hok⟩ := h i (List.mem_cons_self _ _)
    have hmore := fun j hj => h j (List.mem_cons_of_mem _ hj)
    unfold extract_particles
    cases hv : vt_list[i]? with
    | none => exact absurd (walk_eq_nil hv) hne
    | some vi =>
      have hwalk := walk_eq tess hv
      rw [hwalk] at hne hok
      cases hw : tess.incident_edges vi with
      | nil => exact absurd hw hne
      | cons ed rest =>
        rw [hw] at hok
        simp only [hw]
        rw [extract_edges_go sqrt tess x i (ed :: rest) _ hok]
        simp only [ih _ _ hmore]
        simp only [foldl_seg_step_faces, foldl_seg_step_vol, foldl_seg_step_cx,
          foldl_seg_step_cy, zero_lit, zero_add, List.flatMap_cons, List.map_cons,
          walk_faces, walk_cell, walk_vol, walk_cx, walk_cy, hwalk, hw, List.append_assoc,
          List.singleton_append]

theorem extract_particles_nonneg (sqrt : α → α) (tess : Tess α) (vt_list : List Nat)
    (x : Int → Point α) :
    ∀ (gens : List Nat) (faces : List (FaceRecord α)) (cells : List (CellRecord α))
      (r : Extracted α),
      extract_particles sqrt tess vt_list x gens faces cells = some r → 0 ≤ r.code →
      ∀ i ∈ gens, walk tess vt_list i ≠ [] ∧ ∀ e ∈ walk tess vt_list i, e.closed = true := by
  intro gens
  induction gens with
  | nil => intro faces cells r _ _ i hi; cases hi
  | cons i more ih =>
    intro faces cells r h hc
    unfold extract_particles at h
    cases hv : vt_list[i]? with
    | none => simp [hv] at h
    | some vi =>
      cases hw : tess.incident_edges vi with
      | nil => simp [hv, hw] at h
      | cons ed rest =>
        simp only [hv, hw] at h
        by_cases hall : ∀ e ∈ ed :: rest, e.closed = true
        · rw [extract_edges_go sqrt tess x i _ _ hall] at h
          have ih2 := ih _ _ r h hc
          intro j hj
          rcases List.mem_cons.1 hj with rfl | hj
          · rw [walk_eq _ hv, hw]
            exact ⟨by simp, hall⟩
          · exact ih2 j hj
        · obtain ⟨s1, hs1⟩ := extract_edges_ret sqrt tess x i _
            { cx := 0.0, cy := 0.0, vol := 0.0, faces := faces } (exists_closed_false hall)
          rw [hs1] at h
          simp only [Option.some.injEq] at h
          rw [← h] at hc
          simp at hc

theorem extract_particles_code (sqrt : α → α) (tess : Tess α) (vt_list : List Nat)
    (x : Int → Point α) :
    ∀ (gens : List Nat) (faces : List (FaceRecord α)) (cells : List (CellRecord α))
      (r : Extracted α),
      extract_particles sqrt tess vt_list x gens faces cells = some r →
      r.code = -1 ∨ r.code = (r.faces.length : Int) := by
  intro gens
  induction gens with
  | nil =>
    intro faces cells r h
    right
    simp only [extract_particles, Option.some.injEq] at h
    rw [← h]
  | cons i more ih =>
    intro faces cells r h
    unfold extract_particles at h
    cases hv : vt_list[i]? with
    | none => simp [hv] at h
    | some vi =>
      cases hw : tess.incident_edges vi with
      | nil => simp [hv, hw] at h
      | cons ed rest =>
        simp only [hv, hw] at h
        by_cases hall : ∀ e ∈ ed :: rest, e.closed = true
        · rw [extract_edges_go sqrt tess x i _ _ hall] at h
          exact ih _ _ r h
        · obtain ⟨s1, hs1⟩ := extract_edges_ret sqrt tess x i _
            { cx := 0.0, cy := 0.0, vol := 0.0, faces := faces } (exists_closed_false hall)
          rw [hs1] at h
          simp only [Option.some.injEq] at h
          left
          rw [← h]

end FieldLemmas

section AgreementLemmas

variable {α : Type} [LinearOrderedField α]

omit [LinearOrderedField α] in
theorem face_ok_of_closed {tess : Tess α} {i : Nat} {e : Edge α}
    (hc : e.closed = true) (ho : tess.info e.first_vertex = (i : Int)) :
    face_ok tess i e = true := by
  simp [face_ok, hc, ho]

omit [LinearOrderedField α] in
theorem closed_of_face_ok {tess : Tess α} {i : Nat} {e : Edge α}
    (h : face_ok tess i e = true) : e.closed = true := by
  simp only [face_ok, Bool.and_eq_true] at h
  exact h.1

theorem length_filterMap_edge_face (sqrt : α → α) (tess : Tess α) (x : Int → Point α) (i : Nat) :
    ∀ es : List (Edge α), (∀ e ∈ es, e.closed = true) →
      (es.filterMap (edge_face sqrt tess x i)).length = es.countP (counted tess) := by
  intro es
  induction es with
  | nil => intro _; simp
  | cons ed rest ih =>
    intro h
    have hed := h ed (List.mem_cons_self _ _)
    have hrest : ∀ e ∈ rest, e.closed = true := fun e he => h e (List.mem_cons_of_mem _ he)
    simp only [Edge.closed, Bool.and_eq_true, Bool.not_eq_true'] at hed
    cases hd : ed.dual with
    | segment p1 p2 =>
      by_cases hlt : tess.info ed.first_vertex < tess.info ed.second_vertex
      · simp [List.filterMap_cons, edge_face, hd, hlt, counted, List.countP_cons, ih hrest]
      · simp [List.filterMap_cons, edge_face, hd, hlt, counted, List.countP_cons, ih hrest]
    | ray => simp [hd, Dual.is_segment] at hed
    | other => simp [hd, Dual.is_segment] at hed

/-- When every walked edge carries the tag of the generator being walked,
`extract_geometry` and `count_number_of_faces` take the same decisions. -/
theorem extract_code_eq_count (sqrt : α → α) (tess : Tess α) (vt_list : List Nat)
    (x : Int → Point α) :
    ∀ (gens : List Nat) (n : Int) (faces : List (FaceRecord α)) (cells : List (CellRecord α)),
      n = (faces.length : Int) →
      (∀ i ∈ gens, ∀ e ∈ walk tess vt_list i, tess.info e.first_vertex = (i : Int)) →
      (extract_particles sqrt tess vt_list x gens faces cells).map (fun r => r.code)
        = count_particles tess vt_list gens n := by
  intro gens
  induction gens with
  | nil => intro n faces cells hn _; simp [extract_particles, count_particles, hn]
  | cons i more ih =>
    intro n faces cells hn hown
    have hi := hown i (List.mem_cons_self _ _)
    have hmore := fun j hj => hown j (List.mem_cons_of_mem _ hj)
    unfold extract_particles count_particles
    cases hv : vt_list[i]? with
    | none => simp
    | some vi =>
      rw [walk_eq _ hv] at hi
      cases hw : tess.incident_edges vi with
      | nil => simp [hw]
      | cons ed rest =>
        rw [hw] at hi
        simp only [hw]
        by_cases hall : ∀ e ∈ ed :: rest, e.closed = true
        · have hall2 : ∀ e ∈ ed :: rest, face_ok tess i e = true :=
            fun e he => face_ok_of_closed (hall e he) (hi e he)
          rw [extract_edges_go sqrt tess x i _ _ hall, count_edges_go tess i _ n hall2]
          simp only []
          apply ih
          · rw [foldl_seg_step_faces, List.length_append,
              length_filterMap_edge_face sqrt tess x i _ hall, hn]
            push_cast
            rfl
          · exact hmore
        · obtain ⟨e, he, hbad⟩ := exists_closed_false hall
          obtain ⟨s1, hs1⟩ := extract_edges_ret sqrt tess x i (ed :: rest)
            { cx := 0.0, cy := 0.0, vol := 0.0, faces := faces } ⟨e, he, hbad⟩
          have hbad2 : face_ok tess i e = false := by simp [face_ok, hbad]
          obtain ⟨s2, hs2⟩ := count_edges_ret tess i (ed :: rest) n ⟨e, he, hbad2⟩
          rw [hs1, hs2]
          simp

/-- On a session whose walked edges all carry the tag of the generator being
walked, `extract_geometry` returns what `count_number_of_faces` returns. -/
theorem extract_geometry_code_eq_count (sqrt : α → α) (st : Tess2d α) (x : Int → Point α)
    (tess : Tess α) (vt_list : List Nat)
    (htess : st.ptess = some tess) (hvt : st.pvt_list = some vt_list)
    (hown : ∀ i < st.local_num_particles, ∀ e ∈ walk tess vt_list i,
      tess.info e.first_vertex = (i : Int)) :
    (extract_geometry sqrt st x).map (fun r => r.code) = count_number_of_faces st := by
  simp only [extract_geometry, count_number_of_faces, htess, hvt]
  exact extract_code_eq_count sqrt tess vt_list x _ 0 [] [] rfl
    (fun i hi => hown i (List.mem_range.1 hi))

end AgreementLemmas

section PairLemmas

variable {α : Type}

theorem counted_total_eq_length (tess : Tess α) (vt_list : List Nat) (N : Nat)
    (hown : ∀ i < N, ∀ e ∈ walk tess vt_list i, tess.info e.first_vertex = (i : Int)) :
    counted_total tess vt_list (List.range N) = (counted_pairs tess vt_list N).length := by
  unfold counted_total counted_pairs
  rw [List.length_flatMap]
  congr 1
  apply List.map_congr_left
  intro i hi
  have hi2 := List.mem_range.1 hi
  simp only [Function.comp, List.length_map, nbr_tags, List.filter_map, ← List.countP_eq_length_filter]
  apply List.countP_congr
  intro e he
  simp [counted, hown i hi2 e he]

theorem counted_pairs_nodup (tess : Tess α) (vt_list : List Nat) (N : Nat)
    (hnd : ∀ i < N, (nbr_tags tess vt_list i).Nodup) :
    (counted_pairs tess vt_list N).Nodup := by
  unfold counted_pairs
  rw [List.nodup_flatMap]
  constructor
  · intro i hi
    apply List.Nodup.map
    · intro a b hab
      exact Sym2.congr_right.1 hab
    · exact (hnd i (List.mem_range.1 hi)).filter _
  · apply (List.nodup_range N).pairwise_of_forall_ne
    intro i _ j _ hij
    intro p hp1 hp2
    simp only [List.mem_map, List.mem_filter, decide_eq_true_eq] at hp1 hp2
    obtain ⟨t, ⟨_, hit⟩, rfl⟩ := hp1
    obtain ⟨u, ⟨_, hju⟩, hu⟩ := hp2
    rcases Sym2.eq_iff.1 hu with ⟨h1, _⟩ | ⟨h1, h2⟩
    · exact hij (by exact_mod_cast h1.symm)
    · omega

theorem counted_pairs_toFinset (tess : Tess α) (vt_list : List Nat) (N : Nat)
    (hsym : ∀ i < N, ∀ j < N,
      (j : Int) ∈ nbr_tags tess vt_list i → (i : Int) ∈ nbr_tags tess vt_list j)
    (hpos : ∀ i < N, ∀ t ∈ nbr_tags tess vt_list i, (0 : Int) ≤ t) :
    (counted_pairs tess vt_list N).toFinset = adjacent_pairs tess vt_list N := by
  ext p
  simp only [counted_pairs, adjacent_pairs, List.mem_toFinset, List.mem_flatMap, List.mem_range,
    List.mem_map, List.mem_filter, decide_eq_true_eq]
  constructor
  · rintro ⟨i, hi, t, ⟨ht, hlt⟩, rfl⟩
    exact ⟨i, hi, t, ⟨ht, by omega⟩, rfl⟩
  · rintro ⟨i, hi, t, ⟨ht, hne⟩, rfl⟩
    by_cases hlt : (i : Int) < t
    · exact ⟨i, hi, t, ⟨ht, hlt⟩, rfl⟩
    · have h0 := hpos i hi t ht
      have hti : t < (i : Int) := by omega
      obtain ⟨j, rfl⟩ := Int.eq_ofNat_of_zero_le h0
      have hj : j < N := by omega
      exact ⟨j, hj, (i : Int), ⟨hsym i hi j hj ht, hti⟩, Sym2.eq_swap⟩

end PairLemmas

section FaceLemmas

variable {α : Type} [LinearOrderedField α]

theorem pairs_of_walk_faces (sqrt : α → α) (tess : Tess α) (x : Int → Point α) (i : Nat) :
    ∀ es : List (Edge α), (∀ e ∈ es, e.closed = true) →
      (∀ e ∈ es, tess.info e.first_vertex = (i : Int)) →
      (es.filterMap (edge_face sqrt tess x i)).map (fun f => s(f.pair_i, f.pair_j))
        = ((es.map (fun e => tess.info e.second_vertex)).filter
            (fun t => decide ((i : Int) < t))).map (fun t => s((i : Int), t)) := by
  intro es
  induction es with
  | nil => intro _ _; simp
  | cons ed rest ih =>
    intro hc ho
    have hed := hc ed (List.mem_cons_self _ _)
    have hown := ho ed (List.mem_cons_self _ _)
    have ih2 := ih (fun e he => hc e (List.mem_cons_of_mem _ he))
      (fun e he => ho e (List.mem_cons_of_mem _ he))
    simp only [Edge.closed, Bool.and_eq_true, Bool.not_eq_true'] at hed
    cases hd : ed.dual with
    | segment p1 p2 =>
      by_cases hlt : (i : Int) < tess.info ed.second_vertex
      · simp [List.filterMap_cons, edge_face, hd, hown, hlt, List.filter_cons, ih2]
      · simp [List.filterMap_cons, edge_face, hd, hown, hlt, List.filter_cons, ih2]
    | ray => simp [hd, Dual.is_segment] at hed
    | other => simp [hd, Dual.is_segment] at hed

theorem pairs_of_faces (sqrt : α → α) (tess : Tess α) (vt_list : List Nat) (x : Int → Point α)
    (N : Nat)
    (hc : ∀ i < N, ∀ e ∈ walk tess vt_list i, e.closed = true)
    (ho : ∀ i < N, ∀ e ∈ walk tess vt_list i, tess.info e.first_vertex = (i : Int)) :
    ((List.range N).flatMap (walk_faces sqrt tess vt_list x)).map
        (fun f => s(f.pair_i, f.pair_j))
      = counted_pairs tess vt_list N := by
  unfold counted_pairs
  rw [List.map_flatMap]
  apply List.flatMap_congr
  intro i hi
  have hi2 := List.mem_range.1 hi
  exact pairs_of_walk_faces sqrt tess x i _ (hc i hi2) (ho i hi2)

/-- The result of a successful `extract_geometry`, walk by walk. -/
theorem extract_geometry_success (sqrt : α → α) (st : Tess2d α) (x : Int → Point α)
    (tess : Tess α) (vt_list : List Nat) (r : Extracted α)
    (htess : st.ptess = some tess) (hvt : st.pvt_list = some vt_list)
    (hext : extract_geometry sqrt st x = some r) (hcode : 0 ≤ r.code) :
    (∀ i < st.local_num_particles,
        walk tess vt_list i ≠ [] ∧ ∀ e ∈ walk tess vt_list i, e.closed = true) ∧
      r.code = (r.faces.length : Int) ∧
      r.faces = (List.range st.local_num_particles).flatMap (walk_faces sqrt tess vt_list x) ∧
      r.cells = (List.range st.local_num_particles).map (walk_cell sqrt tess vt_list x) := by
  have hex : extract_geometry sqrt st x
      = extract_particles sqrt tess vt_list x (List.range st.local_num_particles) [] [] := by
    simp [extract_geometry, htess, hvt]
  rw [hex] at hext
  have hall := extract_particles_nonneg sqrt tess vt_list x _ [] [] r hext hcode
  have hgo := extract_particles_go sqrt tess vt_list x _ [] [] hall
  rw [hgo] at hext
  simp only [List.nil_append, Option.some.injEq] at hext
  refine ⟨fun i hi => hall i (List.mem_range.2 hi), ?_, ?_, ?_⟩ <;> rw [← hext]

end FaceLemmas

section BuildLemmas

variable {α : Type} [LinearOrderedField α]

theorem build_edges_go (tess : Tess α) (i : Nat) (pos : Point α) (huge : α) :
    ∀ (es : List (Edge α)) (r : α), (∀ e ∈ es, owner_mismatch tess i e = false) →
      build_edges tess i pos huge es r = Flow.go (es.foldl (build_step pos huge) r) := by
  intro es
  induction es with
  | nil => intro r _; simp [build_edges]
  | cons ed rest ih =>
    intro r h
    have hed := h ed (List.mem_cons_self _ _)
    have hrest : ∀ e ∈ rest, owner_mismatch tess i e = false :=
      fun e he => h e (List.mem_cons_of_mem _ he)
    unfold build_edges
    by_cases hinf : ed.is_infinite = true
    · simp [hinf, ih _ hrest, build_step]
    · have hown : tess.info ed.first_vertex = (i : Int) := by
        simpa [owner_mismatch, hinf] using hed
      cases hd : ed.dual <;> simp [hinf, hown, ih _ hrest, build_step, hd]

theorem build_edges_ret (tess : Tess α) (i : Nat) (pos : Point α) (huge : α) :
    ∀ (es : List (Edge α)) (r : α), (∃ e ∈ es, owner_mismatch tess i e = true) →
      ∃ s, build_edges tess i pos huge es r = Flow.ret (-1) s := by
  intro es
  induction es with
  | nil => intro r h; obtain ⟨e, he, _⟩ := h; cases he
  | cons ed rest ih =>
    intro r h
    unfold build_edges
    by_cases hbad : owner_mismatch tess i ed = true
    · have hb := hbad
      simp only [owner_mismatch, Bool.and_eq_true, Bool.not_eq_true', decide_eq_true_eq] at hb
      exact ⟨r, by simp [hb.1, hb.2]⟩
    · have hrest : ∃ e ∈ rest, owner_mismatch tess i e = true := by
        obtain ⟨e, he, hb⟩ := h
        rcases List.mem_cons.1 he with rfl | he
        · exact absurd hb hbad
        · exact ⟨e, he, hb⟩
      by_cases hinf : ed.is_infinite = true
      · obtain ⟨s, hs⟩ := ih r hrest
        exact ⟨s, by simp [hinf, hs]⟩
      · have hown : tess.info ed.first_vertex = (i : Int) := by
          simpa [owner_mismatch, hinf] using hbad
        cases hd : ed.dual with
        | segment p0 p1 =>
          obtain ⟨s, hs⟩ := ih (max (max r (sq_dist p0 pos)) (sq_dist p1 pos)) hrest
          exact ⟨s, by simp [hinf, hown, hs]⟩
        | ray =>
          obtain ⟨s, hs⟩ := ih huge hrest
          exact ⟨s, by simp [hinf, hown, hs]⟩
        | other =>
          obtain ⟨s, hs⟩ := ih r hrest
          exact ⟨s, by simp [hinf, hown, hs]⟩

omit [LinearOrderedField α] in
theorem exists_mismatch {tess : Tess α} {i : Nat} {es : List (Edge α)}
    (h : ¬ ∀ e ∈ es, owner_mismatch tess i e = false) :
    ∃ e ∈ es, owner_mismatch tess i e = true := by
  by_contra hcon
  apply h
  intro e he
  by_contra hne
  exact hcon ⟨e, he, by simpa using hne⟩

theorem build_particles_go (sqrt : α → α) (tess : Tess α) (vt_list : List Nat)
    (x : Int → Point α) (huge : α) :
    ∀ (gens : List Nat) (radius : List α),
      (∀ i ∈ gens, walk tess vt_list i ≠ [] ∧
        ∀ e ∈ walk tess vt_list i, owner_mismatch tess i e = false) →
      build_particles sqrt tess vt_list x huge gens radius
        = some (0, radius ++ gens.map (walk_radius sqrt tess vt_list x huge)) := by
  intro gens
  induction gens with
  | nil => intro radius _; simp [build_particles]
  | cons i more ih =>
    intro radius h
    obtain ⟨hne, hok⟩ := h i (List.mem_cons_self _ _)
    have hmore := fun j hj => h j (List.mem_cons_of_mem _ hj)
    unfold build_particles
    cases hv : vt_list[i]? with
    | none => exact absurd (walk_eq_nil hv) hne
    | some vi =>
      have hwalk := walk_eq tess hv
      rw [hwalk] at hne hok
      cases hw : tess.incident_edges vi with
      | nil => exact absurd hw hne
      | cons ed rest =>
        rw [hw] at hok
        simp only [hw]
        rw [build_edges_go tess i (x i) huge (ed :: rest) _ hok]
        simp only [ih _ hmore]
        simp only [walk_radius, hwalk, hw, zero_lit, List.map_cons, List.append_assoc,
          List.singleton_append]

theorem build_particles_code (sqrt : α → α) (tess : Tess α) (vt_list : List Nat)
    (x : Int → Point α) (huge : α) :
    ∀ (gens : List Nat) (radius : List α) (c : Int) (out : List α),
      build_particles sqrt tess vt_list x huge gens radius = some (c, out) →
      (c = 0 ∧ ∀ i ∈ gens, walk tess vt_list i ≠ [] ∧
          ∀ e ∈ walk tess vt_list i, owner_mismatch tess i e = false) ∨
      (c = -1 ∧ ∃ i ∈ gens, ∃ e ∈ walk tess vt_list i, owner_mismatch tess i e = true) := by
  intro gens
  induction gens with
  | nil =>
    intro radius c out h
    left
    simp only [build_particles, Option.some.injEq, Prod.mk.injEq] at h
    exact ⟨h.1.symm, fun i hi => by cases hi⟩
  | cons i more ih =>
    intro radius c out h
    unfold build_particles at h
    cases hv : vt_list[i]? with
    | none => simp [hv] at h
    | some vi =>
      have hwalk := walk_eq tess hv
      cases hw : tess.incident_edges vi with
      | nil => simp [hv, hw] at h
      | cons ed rest =>
        simp only [hv, hw] at h
        by_cases hall : ∀ e ∈ ed :: rest, owner_mismatch tess i e = false
        · rw [build_edges_go tess i (x i) huge _ _ hall] at h
          rcases ih _ c out h with ⟨h0, hgood⟩ | ⟨h1, j, hj, e, he, hbad⟩
          · left
            refine ⟨h0, ?_⟩
            intro j hj
            rcases List.mem_cons.1 hj with rfl | hj
            · rw [hwalk, hw]
              exact ⟨by simp, hall⟩
            · exact hgood j hj
          · right
            exact ⟨h1, j, List.mem_cons_of_mem _ hj, e, he, hbad⟩
        · obtain ⟨e, he, hbad⟩ := exists_mismatch hall
          obtain ⟨s, hs⟩ := build_edges_ret tess i (x i) huge (ed :: rest) 0.0 ⟨e, he, hbad⟩
          rw [hs] at h
          simp only [Option.some.injEq, Prod.mk.injEq] at h
          right
          refine ⟨h.1.symm, i, List.mem_cons_self _ _, e, ?_, hbad⟩
          rw [hwalk, hw]
          exact he

theorem build_particles_isSome (sqrt : α → α) (tess : Tess α) (vt_list : List Nat)
    (x : Int → Point α) (huge : α) :
    ∀ (gens : List Nat) (radius : List α), (∀ i ∈ gens, walk tess vt_list i ≠ []) →
      ∃ c out, build_particles sqrt tess vt_list x huge gens radius = some (c, out) := by
  intro gens
  induction gens with
  | nil => intro radius _; exact ⟨0, radius, by simp [build_particles]⟩
  | cons i more ih =>
    intro radius h
    have hne := h i (List.mem_cons_self _ _)
    have hmore := fun j hj => h j (List.mem_cons_of_mem _ hj)
    unfold build_particles
    cases hv : vt_list[i]? with
    | none => exact absurd (walk_eq_nil hv) hne
    | some vi =>
      rw [walk_eq _ hv] at hne
      cases hw : tess.incident_edges vi with
      | nil => exact absurd hw hne
      | cons ed rest =>
        simp only [hw]
        cases hb : build_edges tess i (x i) huge (ed :: rest) 0.0 with
        | ret code s => exact ⟨code, radius, rfl⟩
        | go s => exact ih _ hmore

end BuildLemmas

section RadiusLemmas

variable {α : Type} [LinearOrderedField α]

theorem endpoint_sq_dists_cons (pos : Point α) (ed : Edge α) (rest : List (Edge α)) :
    endpoint_sq_dists pos (ed :: rest)
      = (if ed.is_infinite then []
         else
           match ed.dual with
           | Dual.segment p0 p1 => [sq_dist p0 pos, sq_dist p1 pos]
           | _ => []) ++ endpoint_sq_dists pos rest := by
  simp [endpoint_sq_dists, List.flatMap_cons]

theorem foldl_build_step_huge (pos : Point α) (huge : α) :
    ∀ (es : List (Edge α)), (∀ d ∈ endpoint_sq_dists pos es, d ≤ huge) →
      es.foldl (build_step pos huge) huge = huge := by
  intro es
  induction es with
  | nil => intro _; rfl
  | cons ed rest ih =>
    intro h
    rw [endpoint_sq_dists_cons] at h
    have hrest : ∀ d ∈ endpoint_sq_dists pos rest, d ≤ huge :=
      fun d hd => h d (List.mem_append_right _ hd)
    rw [List.foldl_cons]
    by_cases hinf : ed.is_infinite = true
    · simp [build_step, hinf, ih hrest]
    · have hf : ed.is_infinite = false := by simpa using hinf
      cases hd : ed.dual with
      | segment p0 p1 =>
        have h0 : sq_dist p0 pos ≤ huge := h _ (by simp [hf, hd])
        have h1 : sq_dist p1 pos ≤ huge := h _ (by simp [hf, hd])
        have hstep : build_step pos huge huge ed = huge := by
          simp [build_step, hf, hd, max_eq_left h0, max_eq_left h1]
        rw [hstep, ih hrest]
      | ray =>
        have hstep : build_step pos huge huge ed = huge := by simp [build_step, hf, hd]
        rw [hstep, ih hrest]
      | other =>
        have hstep : build_step pos huge huge ed = huge := by simp [build_step, hf, hd]
        rw [hstep, ih hrest]

theorem foldl_build_step_ray (pos : Point α) (huge : α) :
    ∀ (es : List (Edge α)) (r : α),
      (∃ e ∈ es, e.is_infinite = false ∧ e.dual = Dual.ray) →
      (∀ d ∈ endpoint_sq_dists pos es, d ≤ huge) →
      es.foldl (build_step pos huge) r = huge := by
  intro es
  induction es with
  | nil => intro r h; obtain ⟨e, he, _⟩ := h; cases he
  | cons ed rest ih =>
    intro r hray h
    rw [endpoint_sq_dists_cons] at h
    have hrest : ∀ d ∈ endpoint_sq_dists pos rest, d ≤ huge :=
      fun d hd => h d (List.mem_append_right _ hd)
    rw [List.foldl_cons]
    by_cases hthis : ed.is_infinite = false ∧ ed.dual = Dual.ray
    · have hstep : build_step pos huge r ed = huge := by
        simp [build_step, hthis.1, hthis.2]
      rw [hstep, foldl_build_step_huge pos huge rest hrest]
    · apply ih _ _ hrest
      obtain ⟨e, he, hb⟩ := hray
      rcases List.mem_cons.1 he with rfl | he
      · exact absurd hb hthis
      · exact ⟨e, he, hb⟩

theorem build_initial_tess_eq (sqrt : α → α) (K : Kernel α) (st : Tess2d α)
    (x : Int → Point α) (N : Nat) (huge : α) :
    build_initial_tess sqrt K st x N huge
      = (build_particles sqrt (built_tess K x N) (built_vt_list K x N) x huge
          (List.range N) []).map
        (fun cr =>
          { code := cr.1
            self := { st with local_num_particles := N
                              ptess := some (built_tess K x N)
                              pvt_list := some (built_vt_list K x N) }
            radius := cr.2 }) := by
  dsimp only [build_initial_tess, built_tess, built_vt_list]
  cases h : build_particles sqrt (insert_locals K x (List.range N) K.new_tess []).1
      (insert_locals K x (List.range N) K.new_tess []).2 x huge (List.range N) [] with
  | none => rfl
  | some cr => rfl

/-- The result of a successful `build_initial_tess`, walk by walk. -/
theorem build_initial_tess_success (sqrt : α → α) (K : Kernel α) (st : Tess2d α)
    (x : Int → Point α) (N : Nat) (huge : α) (b : Built α)
    (hb : build_initial_tess sqrt K st x N huge = some b) (hcode : b.code = 0) :
    (∀ i < N, walk (built_tess K x N) (built_vt_list K x N) i ≠ [] ∧
        ∀ e ∈ walk (built_tess K x N) (built_vt_list K x N) i,
          owner_mismatch (built_tess K x N) i e = false) ∧
      b.radius = (List.range N).map
        (walk_radius sqrt (built_tess K x N) (built_vt_list K x N) x huge) := by
  rw [build_initial_tess_eq] at hb
  cases hp : build_particles sqrt (built_tess K x N) (built_vt_list K x N) x huge
      (List.range N) [] with
  | none => simp [hp] at hb
  | some cr =>
    obtain ⟨c, out⟩ := cr
    simp only [hp, Option.map_some', Option.some.injEq] at hb
    have hc : c = 0 := by rw [← hb] at hcode; exact hcode
    rcases build_particles_code sqrt _ _ x huge _ _ c out hp with ⟨_, hgood⟩ | ⟨h1, _⟩
    · have hgo := build_particles_go sqrt _ _ x huge _ [] hgood
      rw [hp] at hgo
      simp only [List.nil_append, Option.some.injEq, Prod.mk.injEq] at hgo
      refine ⟨fun i hi => hgood i (List.mem_range.2 hi), ?_⟩
      rw [← hb]
      exact hgo.2
    · omega

end RadiusLemmas

theorem star_walk_one :
    walk (built_tess (fresh_kernel star_table) (star_x : Int → Point ℚ) 4)
      (built_vt_list (fresh_kernel star_table) (star_x : Int → Point ℚ) 4) 1
    = [⟨false, 1, 2, Dual.ray⟩, ⟨false, 1, 0, Dual.segment ⟨1, 1⟩ ⟨1, -3⟩⟩,
       ⟨false, 1, 3, Dual.ray⟩, ⟨true, 1, 4, Dual.other⟩] := rfl

theorem star_dists_le :
    ∀ d ∈ endpoint_sq_dists ((star_x : Int → Point ℚ) (1 : Nat))
        (walk (built_tess (fresh_kernel star_table) (star_x : Int → Point ℚ) 4)
          (built_vt_list (fresh_kernel star_table) (star_x : Int → Point ℚ) 4) 1),
      d ≤ 100 := by
  intro d hd
  rw [star_walk_one] at hd
  simp [endpoint_sq_dists, sq_dist, star_x] at hd
  rcases hd with rfl | rfl <;> norm_num

section SumLemmas

variable {α : Type} [LinearOrderedField α]

theorem sum_map_sub_list {ι : Type} (l : List ι) (f g : ι → α) :
    (l.map (fun a => f a - g a)).sum = (l.map f).sum - (l.map g).sum := by
  induction l with
  | nil => simp
  | cons a rest ih => simp only [List.map_cons, List.sum_cons, ih]; ring

theorem sum_map_forall₂ {ι κ : Type} {R : ι → κ → Prop} {f : ι → α} {g : κ → α}
    (hfg : ∀ a b, R a b → f a = g b) :
    ∀ {l₁ : List ι} {l₂ : List κ}, List.Forall₂ R l₁ l₂ →
      (l₁.map f).sum = (l₂.map g).sum := by
  intro l₁ l₂ h
  induction h with
  | nil => simp
  | cons hab _ ih => simp only [List.map_cons, List.sum_cons, ih, hfg _ _ hab]

theorem sum_abs_half_of_nonneg {ι : Type} (l : List ι) (f : ι → α)
    (h : ∀ a ∈ l, 0 ≤ f a) :
    (l.map (fun a => abs (f a) / 2)).sum = abs ((l.map f).sum) / 2 := by
  have key : (l.map (fun a => abs (f a) / 2)).sum = (l.map f).sum / 2 ∧ 0 ≤ (l.map f).sum := by
    induction l with
    | nil => simp
    | cons a rest ih =>
      obtain ⟨h1, h2⟩ := ih (fun b hb => h b (List.mem_cons_of_mem _ hb))
      have ha := h a (List.mem_cons_self _ _)
      simp only [List.map_cons, List.sum_cons, h1, abs_of_nonneg ha]
      exact ⟨by ring, add_nonneg ha h2⟩
  rw [key.1, abs_of_nonneg key.2]

theorem sum_map_neg_list {ι : Type} (l : List ι) (f : ι → α) :
    (l.map (fun a => - f a)).sum = - (l.map f).sum := by
  induction l with
  | nil => simp
  | cons a rest ih => simp only [List.map_cons, List.sum_cons, ih]; ring

theorem sum_abs_half_of_nonpos {ι : Type} (l : List ι) (f : ι → α)
    (h : ∀ a ∈ l, f a ≤ 0) :
    (l.map (fun a => abs (f a) / 2)).sum = abs ((l.map f).sum) / 2 := by
  have h1 := sum_abs_half_of_nonneg l (fun a => - f a) (fun a ha => neg_nonneg.2 (h a ha))
  simp only [abs_neg] at h1
  rw [h1, sum_map_neg_list, abs_neg]

theorem sum_sides_snd (V : List (Point α)) (g : Point α → α) :
    ((sides V).map (fun vw => g vw.2)).sum = (V.map g).sum := by
  have h1 : (sides V).map (fun vw => g vw.2) = ((sides V).map Prod.snd).map g := by
    rw [List.map_map]; rfl
  rw [h1, sides, List.map_snd_zip _ _ (by rw [List.length_rotate])]
  exact ((List.rotate_perm V 1).map g).sum_eq

theorem sum_sides_fst (V : List (Point α)) (g : Point α → α) :
    ((sides V).map (fun vw => g vw.1)).sum = (V.map g).sum := by
  have h1 : (sides V).map (fun vw => g vw.1) = ((sides V).map Prod.fst).map g := by
    rw [List.map_map]; rfl
  rw [h1, sides, List.map_fst_zip _ _ (by rw [List.length_rotate])]

theorem sum_turn_eq_shoelace (p : Point α) (V : List (Point α)) :
    ((sides V).map (fun vw => turn p vw.1 vw.2)).sum
      = ((sides V).map (fun vw => vw.1.x * vw.2.y - vw.2.x * vw.1.y)).sum := by
  have h : (sides V).map (fun vw => turn p vw.1 vw.2)
      = (sides V).map (fun vw => (vw.1.x * vw.2.y - vw.2.x * vw.1.y)
          + (p.y * vw.2.x - p.x * vw.2.y) - (p.y * vw.1.x - p.x * vw.1.y)) := by
    apply List.map_congr_left
    intro vw _
    simp only [turn]
    ring
  rw [h, sum_map_sub_list, List.sum_map_add,
    sum_sides_snd V (fun u => p.y * u.x - p.x * u.y),
    sum_sides_fst V (fun u => p.y * u.x - p.x * u.y)]
  ring
end SumLemmas

theorem sqrt_mul_sqrt_of_bisector (p pn v w : Point ℝ) (hne : pn ≠ p)
    (hv : on_bisector p pn v) (hw : on_bisector p pn w) :
    Real.sqrt ((w.x - v.x) * (w.x - v.x) + (w.y - v.y) * (w.y - v.y))
        * Real.sqrt ((pn.x - p.x) * (pn.x - p.x) + (pn.y - p.y) * (pn.y - p.y))
      = 2 * abs (turn p v w) := by
  unfold on_bisector at hv hw
  have hR : (pn.x - p.x) * (pn.x - p.x) + (pn.y - p.y) * (pn.y - p.y) ≠ 0 := by
    intro h0
    have hx : pn.x - p.x = 0 := by nlinarith [mul_self_nonneg (pn.x - p.x), mul_self_nonneg (pn.y - p.y)]
    have hy : pn.y - p.y = 0 := by nlinarith [mul_self_nonneg (pn.x - p.x), mul_self_nonneg (pn.y - p.y)]
    apply hne
    cases pn; cases p
    simp only [Point.mk.injEq]
    exact ⟨by linarith, by linarith⟩
  have hc : 2 * turn p v w
      = (pn.x - p.x) * (w.y - v.y) - (pn.y - p.y) * (w.x - v.x) := by
    apply mul_left_cancel₀ hR
    simp only [turn]
    linear_combination
      2 * ((pn.x - p.x) * (w.y - p.y) - (pn.y - p.y) * (w.x - p.x)) * hv
      - 2 * ((pn.x - p.x) * (v.y - p.y) - (pn.y - p.y) * (v.x - p.x)) * hw
  have hdot : (w.x - v.x) * (pn.x - p.x) + (w.y - v.y) * (pn.y - p.y) = 0 := by
    linear_combination hw - hv
  have hprod : ((w.x - v.x) * (w.x - v.x) + (w.y - v.y) * (w.y - v.y))
      * ((pn.x - p.x) * (pn.x - p.x) + (pn.y - p.y) * (pn.y - p.y))
      = (2 * turn p v w) ^ 2 := by
    rw [hc]
    linear_combination
      ((w.x - v.x) * (pn.x - p.x) + (w.y - v.y) * (pn.y - p.y)) * hdot
  rw [← Real.sqrt_mul (add_nonneg (mul_self_nonneg _) (mul_self_nonneg _)), hprod,
    Real.sqrt_sq_eq_abs, abs_mul, abs_two]

theorem turn_swap (p v w : Point ℝ) : turn p w v = - turn p v w := by
  simp only [turn]; ring

theorem edge_vol_of_cell_side (tess : Tess ℝ) (x : Int → Point ℝ) (i : Nat) (e : Edge ℝ)
    (vw : Point ℝ × Point ℝ) (h : is_cell_side tess x (x i) e vw) :
    edge_vol Real.sqrt tess x i e = abs (turn (x i) vw.1 vw.2) / 2 := by
  obtain ⟨hd, hne, hv, hw⟩ := h
  rcases hd with hd | hd
  · simp only [edge_vol, hd, dist_pts]
    rw [mul_assoc, sqrt_mul_sqrt_of_bisector (x i) _ vw.1 vw.2 hne hv hw]
    ring
  · simp only [edge_vol, hd, dist_pts]
    rw [mul_assoc, sqrt_mul_sqrt_of_bisector (x i) _ vw.2 vw.1 hne hw hv, turn_swap, abs_neg]
    ring

theorem square_walk :
    walk (square_tess : Tess ℝ) [0] 0
      = [⟨false, 0, 1, Dual.segment ⟨1, -1⟩ ⟨1, 1⟩⟩,
         ⟨false, 0, 2, Dual.segment ⟨1, 1⟩ ⟨-1, 1⟩⟩,
         ⟨false, 0, 3, Dual.segment ⟨-1, 1⟩ ⟨-1, -1⟩⟩,
         ⟨false, 0, 4, Dual.segment ⟨-1, -1⟩ ⟨1, -1⟩⟩] := rfl

theorem square_sides_eq :
    sides (square_polygon : List (Point ℝ))
      = [(⟨1, -1⟩, ⟨1, 1⟩), (⟨1, 1⟩, ⟨-1, 1⟩), (⟨-1, 1⟩, ⟨-1, -1⟩), (⟨-1, -1⟩, ⟨1, -1⟩)] := rfl

theorem square_closed :
    ∀ j < (square_session : Tess2d ℝ).local_num_particles,
      walk (square_tess : Tess ℝ) [0] j ≠ [] ∧
        ∀ e ∈ walk (square_tess : Tess ℝ) [0] j, e.closed = true := by
  intro j hj
  have hj0 : j = 0 := by
    have : j < 1 := hj
    omega
  subst hj0
  rw [square_walk]
  refine ⟨List.cons_ne_nil _ _, ?_⟩
  intro e he
  simp only [List.mem_cons, List.mem_singleton, List.not_mem_nil, or_false] at he
  rcases he with rfl | rfl | rfl | rfl <;> rfl

theorem square_is_cell :
    List.Forall₂ (is_cell_side (square_tess : Tess ℝ) square_x (square_x (0 : Nat)))
      (walk (square_tess : Tess ℝ) [0] 0) (sides (square_polygon : List (Point ℝ))) := by
  rw [square_walk, square_sides_eq]
  refine List.Forall₂.cons ?_ (List.Forall₂.cons ?_ (List.Forall₂.cons ?_
    (List.Forall₂.cons ?_ List.Forall₂.nil)))
  all_goals
    refine ⟨Or.inl rfl, ?_, ?_, ?_⟩
    · simp [square_tess, square_x]
    · simp [square_tess, square_x, on_bisector]
    · simp [square_tess, square_x, on_bisector]

theorem square_contains :
    contains_generator (square_x (0 : Nat)) (square_polygon : List (Point ℝ)) := by
  left
  rw [square_sides_eq]
  intro vw hvw
  simp only [List.mem_cons, List.mem_singleton, List.not_mem_nil, or_false] at hvw
  rcases hvw with rfl | rfl | rfl | rfl <;> norm_num [turn, square_x]

theorem square_area : shoelace_area (square_polygon : List (Point ℝ)) = 4 := by
  rw [shoelace_area, square_sides_eq]
  norm_num


section ExtractReturns

variable {α : Type} [LinearOrderedField α]

theorem extract_particles_isSome (sqrt : α → α) (tess : Tess α) (vt_list : List Nat)
    (x : Int → Point α) :
    ∀ (gens : List Nat) (faces : List (FaceRecord α)) (cells : List (CellRecord α)),
      (∀ i ∈ gens, walk tess vt_list i ≠ []) →
      ∃ r, extract_particles sqrt tess vt_list x gens faces cells = some r := by
  intro gens
  induction gens with
  | nil => intro faces cells _; exact ⟨_, rfl⟩
  | cons i more ih =>
    intro faces cells h
    have hne := h i (List.mem_cons_self _ _)
    have hmore := fun j hj => h j (List.mem_cons_of_mem _ hj)
    unfold extract_particles
    cases hv : vt_list[i]? with
    | none => exact absurd (walk_eq_nil hv) hne
    | some vi =>
      rw [walk_eq _ hv] at hne
      cases hw : tess.incident_edges vi with
      | nil => exact absurd hw hne
      | cons ed rest =>
        simp only [hw]
        cases hb : extract_edges sqrt tess x i (ed :: rest)
            { cx := 0.0, cy := 0.0, vol := 0.0, faces := faces } with
        | ret code s => exact ⟨_, rfl⟩
        | go s => exact ih _ _ hmore

end ExtractReturns

section ReorderLemmas

variable {α : Type} [LinearOrderedField α]

theorem foldl_build_step_no_ray (pos : Point α) (huge : α) :
    ∀ (es : List (Edge α)) (r : α), 0 ≤ r →
      (∀ e ∈ es, e.is_infinite = false → e.dual ≠ Dual.ray) →
      es.foldl (build_step pos huge) r = max r (max_sq_dist (endpoint_sq_dists pos es)) := by
  intro es
  induction es with
  | nil =>
    intro r hr _
    simp [endpoint_sq_dists, max_sq_dist, max_eq_left hr]
  | cons ed rest ih =>
    intro r hr h
    have hed := h ed (List.mem_cons_self _ _)
    have hrest := fun e he => h e (List.mem_cons_of_mem _ he)
    rw [List.foldl_cons, endpoint_sq_dists_cons]
    by_cases hinf : ed.is_infinite = true
    · simp [build_step, hinf, ih r hr hrest]
    · have hf : ed.is_infinite = false := by simpa using hinf
      cases hd : ed.dual with
      | segment p0 p1 =>
        have hstep : build_step pos huge r ed
            = max (max r (sq_dist p0 pos)) (sq_dist p1 pos) := by
          simp [build_step, hf, hd]
        rw [hstep, ih _ (le_max_of_le_left (le_max_of_le_left hr)) hrest]
        simp [hf, max_sq_dist, max_assoc]
      | ray => exact absurd hd (hed hf)
      | other =>
        have hstep : build_step pos huge r ed = r := by simp [build_step, hf, hd]
        rw [hstep, ih r hr hrest]
        simp [hf]

theorem max_sq_dist_perm {ds ds' : List α} (h : ds.Perm ds') :
    max_sq_dist ds = max_sq_dist ds' := by
  haveI : LeftCommutative (max : α → α → α) := ⟨max_left_comm⟩
  exact h.foldr_eq 0

theorem foldl_build_step_perm (pos : Point α) (huge : α) {es es' : List (Edge α)}
    (hp : es.Perm es') (hhuge : ∀ d ∈ endpoint_sq_dists pos es, d ≤ huge) :
    es.foldl (build_step pos huge) 0 = es'.foldl (build_step pos huge) 0 := by
  have hdp : (endpoint_sq_dists pos es).Perm (endpoint_sq_dists pos es') := by
    unfold endpoint_sq_dists
    exact hp.flatMap_right _
  have hhuge' : ∀ d ∈ endpoint_sq_dists pos es', d ≤ huge :=
    fun d hd => hhuge d (hdp.mem_iff.2 hd)
  by_cases hray : ∃ e ∈ es, e.is_infinite = false ∧ e.dual = Dual.ray
  · have hray' : ∃ e ∈ es', e.is_infinite = false ∧ e.dual = Dual.ray := by
      obtain ⟨e, he, hb⟩ := hray
      exact ⟨e, hp.mem_iff.1 he, hb⟩
    rw [foldl_build_step_ray pos huge es 0 hray hhuge,
      foldl_build_step_ray pos huge es' 0 hray' hhuge']
  · have hno : ∀ e ∈ es, e.is_infinite = false → e.dual ≠ Dual.ray :=
      fun e he hf hd => hray ⟨e, he, hf, hd⟩
    have hno' : ∀ e ∈ es', e.is_infinite = false → e.dual ≠ Dual.ray :=
      fun e he hf hd => hray ⟨e, hp.mem_iff.2 he, hf, hd⟩
    rw [foldl_build_step_no_ray pos huge es 0 le_rfl hno,
      foldl_build_step_no_ray pos huge es' 0 le_rfl hno', max_sq_dist_perm hdp]

end ReorderLemmas

theorem unit_square_table_answers :
    unit_square_answers
      (built_tess (fresh_kernel unit_square_table) (unit_square_x : Int → Point ℚ) 4)
      (built_vt_list (fresh_kernel unit_square_table) (unit_square_x : Int → Point ℚ) 4) := by
  intro i hi
  have hcases : i = 0 ∨ i = 1 ∨ i = 2 ∨ i = 3 := by omega
  rcases hcases with rfl | rfl | rfl | rfl
  · refine ⟨by decide, by decide, by decide, ?_⟩
    intro e he hseg
    have hw : walk (built_tess (fresh_kernel unit_square_table) (unit_square_x : Int → Point ℚ) 4)
        (built_vt_list (fresh_kernel unit_square_table) (unit_square_x : Int → Point ℚ) 4) 0
        = unit_square_table 4 0 := rfl
    rw [hw] at he
    simp only [unit_square_table, List.mem_cons, List.mem_singleton, List.not_mem_nil,
      or_false] at he
    rcases he with rfl | rfl | rfl | rfl
    all_goals first | rfl | (simp [Dual.is_segment] at hseg)
  · refine ⟨by decide, by decide, by decide, ?_⟩
    intro e he hseg
    have hw : walk (built_tess (fresh_kernel unit_square_table) (unit_square_x : Int → Point ℚ) 4)
        (built_vt_list (fresh_kernel unit_square_table) (unit_square_x : Int → Point ℚ) 4) 1
        = unit_square_table 4 1 := rfl
    rw [hw] at he
    simp only [unit_square_table, List.mem_cons, List.mem_singleton, List.not_mem_nil,
      or_false] at he
    rcases he with rfl | rfl | rfl
    all_goals first | rfl | (simp [Dual.is_segment] at hseg)
  · refine ⟨by decide, by decide, by decide, ?_⟩
    intro e he hseg
    have hw : walk (built_tess (fresh_kernel unit_square_table) (unit_square_x : Int → Point ℚ) 4)
        (built_vt_list (fresh_kernel unit_square_table) (unit_square_x : Int → Point ℚ) 4) 2
        = unit_square_table 4 2 := rfl
    rw [hw] at he
    simp only [unit_square_table, List.mem_cons, List.mem_singleton, List.not_mem_nil,
      or_false] at he
    rcases he with rfl | rfl | rfl | rfl
    all_goals first | rfl | (simp [Dual.is_segment] at hseg)
  · refine ⟨by decide, by decide, by decide, ?_⟩
    intro e he hseg
    have hw : walk (built_tess (fresh_kernel unit_square_table) (unit_square_x : Int → Point ℚ) 4)
        (built_vt_list (fresh_kernel unit_square_table) (unit_square_x : Int → Point ℚ) 4) 3
        = unit_square_table 4 3 := rfl
    rw [hw] at he
    simp only [unit_square_table, List.mem_cons, List.mem_singleton, List.not_mem_nil,
      or_false] at he
    rcases he with rfl | rfl | rfl
    all_goals first | rfl | (simp [Dual.is_segment] at hseg)

section UnitSquareLemmas

variable {α : Type} [LinearOrderedField α]

theorem unit_square_dists_le (tess : Tess α) (vt_list : List Nat) (huge : α)
    (hans : unit_square_answers tess vt_list) (hhuge : 1 / 2 ≤ huge) (i : Nat) (hi : i < 4) :
    ∀ d ∈ endpoint_sq_dists ((unit_square_x : Int → Point α) (i : Int))
      (walk tess vt_list i), d ≤ huge := by
  intro d hd
  simp only [endpoint_sq_dists, List.mem_flatMap] at hd
  obtain ⟨e, he, hde⟩ := hd
  by_cases hinf : e.is_infinite = true
  · simp [hinf] at hde
  · have hcentre := (hans i hi).2.2.2 e he
    cases hdual : e.dual with
    | segment p0 p1 =>
      have hc := hcentre (by simp [hdual, Dual.is_segment])
      rw [hdual] at hc
      simp only [Dual.segment.injEq] at hc
      simp only [hinf, hdual, Bool.false_eq_true, if_false, List.mem_cons, List.mem_singleton,
        List.not_mem_nil, or_false, hc.1, hc.2, or_self] at hde
      have hval : sq_dist (⟨1 / 2, 1 / 2⟩ : Point α) (unit_square_x (i : Int)) = 1 / 2 := by
        have hcases : i = 0 ∨ i = 1 ∨ i = 2 ∨ i = 3 := by omega
        rcases hcases with rfl | rfl | rfl | rfl <;>
          norm_num [sq_dist, unit_square_x]
      rw [hde, hval]
      exact hhuge
    | ray => simp [hinf, hdual] at hde
    | other => simp [hinf, hdual] at hde
end UnitSquareLemmas

section KernelLemmas

variable {α : Type}

theorem map_flatMap_singleton {ι κ β : Type} (f : ι → κ) (g : κ → β) (l : List ι) :
    List.map g (l.flatMap fun a => [f a]) = l.map (fun a => g (f a)) := by
  induction l with
  | nil => rfl
  | cons a rest ih => simp [List.flatMap_cons, ih]

theorem ghost_particles_eq (x : Int → Point α) (N M : Nat) :
    ghost_particles x N M = (List.range' N M).map (fun (i : Nat) => x (i : Int)) := by
  unfold ghost_particles
  exact map_flatMap_singleton (fun (a : Nat) => (a : Int)) (fun i => x i) (List.range' N M)

theorem length_ghost_particles (x : Int → Point α) (N M : Nat) :
    (ghost_particles x N M).length = M := by
  rw [ghost_particles_eq, List.length_map, List.length_range']

theorem length_ghost_states (K : Kernel α) :
    ∀ (pts : List (Point α)) (j : Nat) (tess : Tess α),
      (ghost_states K pts j tess).length = pts.length + 1 := by
  intro pts
  induction pts with
  | nil => intro j tess; rfl
  | cons p more ih => intro j tess; simp [ghost_states, ih]

theorem ghost_states_head (K : Kernel α) (pts : List (Point α)) (j : Nat) (tess : Tess α) :
    (ghost_states K pts j tess)[0]? = some tess := by
  cases pts <;> simp [ghost_states]

theorem ghost_states_last (K : Kernel α) :
    ∀ (pts : List (Point α)) (j : Nat) (tess : Tess α),
      (ghost_states K pts j tess)[pts.length]? = some (insert_ghosts K pts j tess) := by
  intro pts
  induction pts with
  | nil => intro j tess; simp [ghost_states, insert_ghosts]
  | cons p more ih =>
    intro j tess
    simp only [ghost_states, insert_ghosts, List.length_cons, List.getElem?_cons_succ]
    exact ih _ _

theorem ghost_states_step (K : Kernel α) :
    ∀ (pts : List (Point α)) (j : Nat) (tess : Tess α) (k : Nat) (p : Point α),
      pts[k]? = some p →
      ∃ t, (ghost_states K pts j tess)[k]? = some t ∧
        (ghost_states K pts j tess)[k + 1]?
          = some ((K.insert t p).1.set_info (K.insert t p).2 ((j + k : Nat) : Int)) := by
  intro pts
  induction pts with
  | nil => intro j tess k p hp; simp at hp
  | cons q more ih =>
    intro j tess k p hp
    cases k with
    | zero =>
      simp only [List.getElem?_cons_zero, Option.some.injEq] at hp
      subst hp
      refine ⟨tess, by simp [ghost_states], ?_⟩
      simp only [ghost_states, List.getElem?_cons_succ, ghost_states_head]
      simp
    | succ k =>
      simp only [List.getElem?_cons_succ] at hp
      obtain ⟨t, h1, h2⟩ := ih (j + 1)
        ((K.insert tess q).1.set_info (K.insert tess q).2 j) k p hp
      refine ⟨t, by simpa [ghost_states] using h1, ?_⟩
      simp only [ghost_states, List.getElem?_cons_succ]
      rw [h2]
      have : j + 1 + k = j + (k + 1) := by omega
      rw [this]

theorem insert_locals_fresh (K : Kernel α) (hK : K.fresh) (x : Int → Point α) :
    ∀ (n s : Nat) (tess : Tess α) (vt_list : List Nat), tess.points.length = s →
      (insert_locals K x (List.range' s n) tess vt_list).1.points.length = s + n ∧
      (insert_locals K x (List.range' s n) tess vt_list).2 = vt_list ++ List.range' s n ∧
      (∀ h, s ≤ h → h < s + n →
        (insert_locals K x (List.range' s n) tess vt_list).1.info h = (h : Int)) ∧
      (∀ h, h < s →
        (insert_locals K x (List.range' s n) tess vt_list).1.info h = tess.info h) := by
  intro n
  induction n with
  | zero =>
    intro s tess vt_list hs
    refine ⟨by simpa [insert_locals] using hs, by simp [insert_locals], ?_, ?_⟩
    · intro h h1 h2; omega
    · intro h _; simp [insert_locals]
  | succ n ih =>
    intro s tess vt_list hs
    obtain ⟨hh, hp, hi⟩ := hK.2 tess (x (s : Int))
    have hlen : ((K.insert tess (x (s : Int))).1.set_info (K.insert tess (x (s : Int))).2
        (s : Int)).points.length = s + 1 := by
      simp [Tess.set_info, hp, hs]
    obtain ⟨ih1, ih2, ih3, ih4⟩ := ih (s + 1)
      ((K.insert tess (x (s : Int))).1.set_info (K.insert tess (x (s : Int))).2 (s : Int))
      (vt_list ++ [(K.insert tess (x (s : Int))).2]) hlen
    have hr : List.range' s (n + 1) = s :: List.range' (s + 1) n := by
      simp [List.range'_succ]
    rw [hr]
    simp only [insert_locals]
    refine ⟨by rw [ih1]; omega, ?_, ?_, ?_⟩
    · rw [ih2, hh, hs]; simp
    · intro h h1 h2
      by_cases hhs : h = s
      · subst hhs
        rw [ih4 h (by omega)]
        simp [Tess.set_info, hh, hs]
      · exact ih3 h (by omega) (by omega)
    · intro h h1
      rw [ih4 h (by omega)]
      have hne : h ≠ (K.insert tess (x (s : Int))).2 := by rw [hh, hs]; omega
      simp [Tess.set_info, Function.update_noteq hne, hi]

theorem insert_ghosts_fresh (K : Kernel α) (hK : K.fresh) :
    ∀ (pts : List (Point α)) (j : Nat) (tess : Tess α), tess.points.length = j →
      (insert_ghosts K pts j tess).points.length = j + pts.length ∧
      (∀ h, j ≤ h → h < j + pts.length → (insert_ghosts K pts j tess).info h = (h : Int)) ∧
      (∀ h, h < j → (insert_ghosts K pts j tess).info h = tess.info h) := by
  intro pts
  induction pts with
  | nil =>
    intro j tess hj
    refine ⟨by simpa [insert_ghosts] using hj, ?_, ?_⟩
    · intro h h1 h2; simp at h2; omega
    · intro h _; simp [insert_ghosts]
  | cons p more ih =>
    intro j tess hj
    obtain ⟨hh, hp, hi⟩ := hK.2 tess p
    have hlen : ((K.insert tess p).1.set_info (K.insert tess p).2 (j : Int)).points.length
        = j + 1 := by
      simp [Tess.set_info, hp, hj]
    obtain ⟨ih1, ih2, ih3⟩ := ih (j + 1)
      ((K.insert tess p).1.set_info (K.insert tess p).2 (j : Int)) hlen
    simp only [insert_ghosts, List.length_cons]
    refine ⟨by rw [ih1]; omega, ?_, ?_⟩
    · intro h h1 h2
      by_cases hhj : h = j
      · subst hhj
        rw [ih3 h (by omega)]
        simp [Tess.set_info, hh, hj]
      · exact ih2 h (by omega) (by omega)
    · intro h h1
      rw [ih3 h (by omega)]
      have hne : h ≠ (K.insert tess p).2 := by rw [hh, hj]; omega
      simp [Tess.set_info, Function.update_noteq hne, hi]

theorem fresh_kernel_fresh (table : Nat → Nat → List (Edge α)) : (fresh_kernel table).fresh :=
  ⟨rfl, fun _ _ => ⟨rfl, rfl, rfl⟩⟩

end KernelLemmas

section FaceOriginLemmas

variable {α : Type} [LinearOrderedField α]

end FaceOriginLemmas

theorem dist_pts_pos {p q : Point ℝ} (h : q ≠ p) : 0 < dist_pts Real.sqrt p q := by
  unfold dist_pts
  apply Real.sqrt_pos.2
  have h0 : 0 ≤ (q.x - p.x) * (q.x - p.x) + (q.y - p.y) * (q.y - p.y) :=
    add_nonneg (mul_self_nonneg _) (mul_self_nonneg _)
  rcases h0.lt_or_eq with hlt | heq
  · exact hlt
  · exfalso
    apply h
    have hx : q.x - p.x = 0 := by
      nlinarith [mul_self_nonneg (q.x - p.x), mul_self_nonneg (q.y - p.y)]
    have hy : q.y - p.y = 0 := by
      nlinarith [mul_self_nonneg (q.x - p.x), mul_self_nonneg (q.y - p.y)]
    cases q; cases p
    simp only [Point.mk.injEq]
    exact ⟨by linarith, by linarith⟩

theorem dist_pts_mul_self (p q : Point ℝ) :
    dist_pts Real.sqrt p q * dist_pts Real.sqrt p q
      = (q.x - p.x) * (q.x - p.x) + (q.y - p.y) * (q.y - p.y) := by
  unfold dist_pts
  exact Real.mul_self_sqrt (add_nonneg (mul_self_nonneg _) (mul_self_nonneg _))

theorem bisector_facts (p pn v w : Point ℝ) (hne : pn ≠ p)
    (hv : on_bisector p pn v) (hw : on_bisector p pn w) :
    2 * turn p v w = (pn.x - p.x) * (w.y - v.y) - (pn.y - p.y) * (w.x - v.x) ∧
      (w.x - v.x) * (pn.x - p.x) + (w.y - v.y) * (pn.y - p.y) = 0 := by
  unfold on_bisector at hv hw
  have hR : (pn.x - p.x) * (pn.x - p.x) + (pn.y - p.y) * (pn.y - p.y) ≠ 0 := by
    have h1 := dist_pts_pos hne
    have h2 := dist_pts_mul_self p pn
    intro h0
    rw [h0] at h2
    have : dist_pts Real.sqrt p pn = 0 := mul_self_eq_zero.1 h2
    linarith
  constructor
  · apply mul_left_cancel₀ hR
    simp only [turn]
    linear_combination
      2 * ((pn.x - p.x) * (w.y - p.y) - (pn.y - p.y) * (w.x - p.x)) * hv
      - 2 * ((pn.x - p.x) * (v.y - p.y) - (pn.y - p.y) * (v.x - p.x)) * hw
  · linear_combination hw - hv

theorem dist_pts_comm (p q : Point ℝ) : dist_pts Real.sqrt p q = dist_pts Real.sqrt q p := by
  unfold dist_pts
  congr 1
  ring

/-- The area times the unit normal of a side `v w` of the cell of `p`, with
neighbour `pn`: the side turned by a quarter turn, with the sign `s` of the
orientation of `p`, `v`, `w`. -/
theorem area_normal_of_side (p pn v w : Point ℝ) (s : ℝ) (hne : pn ≠ p)
    (hv : on_bisector p pn v) (hw : on_bisector p pn w)
    (hs : abs (2 * turn p v w) = s * (2 * turn p v w)) :
    dist_pts Real.sqrt v w * ((pn.x - p.x) / dist_pts Real.sqrt p pn) = s * (w.y - v.y) ∧
      dist_pts Real.sqrt v w * ((pn.y - p.y) / dist_pts Real.sqrt p pn)
        = - (s * (w.x - v.x)) := by
  obtain ⟨hc, hdot⟩ := bisector_facts p pn v w hne hv hw
  have hpos := dist_pts_pos hne
  have hh := dist_pts_mul_self p pn
  have hprod : dist_pts Real.sqrt v w * dist_pts Real.sqrt p pn = abs (2 * turn p v w) := by
    have := sqrt_mul_sqrt_of_bisector p pn v w hne hv hw
    unfold dist_pts
    rw [this, abs_mul, abs_two]
  have hn : dist_pts Real.sqrt p pn ≠ 0 := ne_of_gt hpos
  have hE : dist_pts Real.sqrt v w
      = s * (2 * turn p v w) / dist_pts Real.sqrt p pn := by
    rw [← hs, ← hprod]; field_simp
  constructor
  · rw [hE, hc]
    field_simp
    rw [hh]
    linear_combination (-(s * (pn.y - p.y))) * hdot
  · rw [hE, hc]
    field_simp
    rw [hh]
    linear_combination (s * (pn.x - p.x)) * hdot

theorem edge_flux_of_cell_side (tess : Tess ℝ) (x : Int → Point ℝ) (i : Nat) (e : Edge ℝ)
    (vw : Point ℝ × Point ℝ) (s : ℝ) (h : is_cell_side tess x (x i) e vw)
    (hs : abs (2 * turn (x i) vw.1 vw.2) = s * (2 * turn (x i) vw.1 vw.2)) :
    (edge_flux Real.sqrt tess x i e).x = s * (vw.2.y - vw.1.y) ∧
      (edge_flux Real.sqrt tess x i e).y = - (s * (vw.2.x - vw.1.x)) := by
  obtain ⟨hd, hne, hv, hw⟩ := h
  have key := area_normal_of_side (x i) _ vw.1 vw.2 s hne hv hw hs
  rcases hd with hd | hd
  · simp only [edge_flux, hd]
    exact key
  · simp only [edge_flux, hd]
    rw [dist_pts_comm vw.2 vw.1]
    exact key

theorem sum_edge_flux_zero (tess : Tess ℝ) (x : Int → Point ℝ) (i : Nat)
    (es : List (Edge ℝ)) (V : List (Point ℝ)) (s : ℝ)
    (hsides : List.Forall₂ (is_cell_side tess x (x i)) es (sides V))
    (hs : ∀ vw ∈ sides V, abs (2 * turn (x i) vw.1 vw.2) = s * (2 * turn (x i) vw.1 vw.2)) :
    (es.map (fun e => (edge_flux Real.sqrt tess x i e).x)).sum = 0 ∧
      (es.map (fun e => (edge_flux Real.sqrt tess x i e).y)).sum = 0 := by
  have hmem : List.Forall₂ (fun e vw => is_cell_side tess x (x i) e vw ∧ vw ∈ sides V)
      es (sides V) := by
    have aux : ∀ (l₁ : List (Edge ℝ)) (l₂ : List (Point ℝ × Point ℝ)),
        List.Forall₂ (is_cell_side tess x (x i)) l₁ l₂ →
        List.Forall₂ (fun e vw => is_cell_side tess x (x i) e vw ∧ vw ∈ l₂) l₁ l₂ := by
      intro l₁ l₂ h
      induction h with
      | nil => exact List.Forall₂.nil
      | cons hab _ ih =>
        exact List.Forall₂.cons ⟨hab, List.mem_cons_self _ _⟩
          (ih.imp (fun _ _ hp => ⟨hp.1, List.mem_cons_of_mem _ hp.2⟩))
    exact aux _ _ hsides
  constructor
  · rw [sum_map_forall₂ (f := fun e => (edge_flux Real.sqrt tess x i e).x)
      (g := fun vw => s * vw.2.y - s * vw.1.y)
      (fun e vw h => by
        beta_reduce
        rw [(edge_flux_of_cell_side tess x i e vw s h.1 (hs vw h.2)).1]; ring) hmem,
      sum_map_sub_list, sum_sides_snd V (fun u => s * u.y), sum_sides_fst V (fun u => s * u.y)]
    ring
  · rw [sum_map_forall₂ (f := fun e => (edge_flux Real.sqrt tess x i e).y)
      (g := fun vw => s * vw.1.x - s * vw.2.x)
      (fun e vw h => by
        beta_reduce
        rw [(edge_flux_of_cell_side tess x i e vw s h.1 (hs vw h.2)).2]; ring) hmem,
      sum_map_sub_list, sum_sides_snd V (fun u => s * u.x), sum_sides_fst V (fun u => s * u.x)]
    ring

section MomentLemmas

variable {α : Type} [LinearOrderedField α]

theorem sum_moment_x (p : Point α) (V : List (Point α)) :
    ((sides V).map (fun vw => turn p vw.1 vw.2 * (vw.1.x + vw.2.x + p.x))).sum
      = ((sides V).map (fun vw =>
          (vw.1.x + vw.2.x) * (vw.1.x * vw.2.y - vw.2.x * vw.1.y))).sum := by
  have h : (sides V).map (fun vw => turn p vw.1 vw.2 * (vw.1.x + vw.2.x + p.x))
      = (sides V).map (fun vw =>
          (vw.1.x + vw.2.x) * (vw.1.x * vw.2.y - vw.2.x * vw.1.y)
          + (p.y * vw.2.x - p.x * vw.2.y) * (p.x + vw.2.x)
          - (p.y * vw.1.x - p.x * vw.1.y) * (p.x + vw.1.x)) := by
    apply List.map_congr_left
    intro vw _
    simp only [turn]
    ring
  rw [h, sum_map_sub_list, List.sum_map_add,
    sum_sides_snd V (fun u => (p.y * u.x - p.x * u.y) * (p.x + u.x)),
    sum_sides_fst V (fun u => (p.y * u.x - p.x * u.y) * (p.x + u.x))]
  ring

theorem sum_moment_y (p : Point α) (V : List (Point α)) :
    ((sides V).map (fun vw => turn p vw.1 vw.2 * (vw.1.y + vw.2.y + p.y))).sum
      = ((sides V).map (fun vw =>
          (vw.1.y + vw.2.y) * (vw.1.x * vw.2.y - vw.2.x * vw.1.y))).sum := by
  have h : (sides V).map (fun vw => turn p vw.1 vw.2 * (vw.1.y + vw.2.y + p.y))
      = (sides V).map (fun vw =>
          (vw.1.y + vw.2.y) * (vw.1.x * vw.2.y - vw.2.x * vw.1.y)
          + (p.y * vw.2.x - p.x * vw.2.y) * (p.y + vw.2.y)
          - (p.y * vw.1.x - p.x * vw.1.y) * (p.y + vw.1.y)) := by
    apply List.map_congr_left
    intro vw _
    simp only [turn]
    ring
  rw [h, sum_map_sub_list, List.sum_map_add,
    sum_sides_snd V (fun u => (p.y * u.x - p.x * u.y) * (p.y + u.y)),
    sum_sides_fst V (fun u => (p.y * u.x - p.x * u.y) * (p.y + u.y))]
  ring

end MomentLemmas

theorem forall₂_with_mem {ι κ : Type} {R : ι → κ → Prop} :
    ∀ {l₁ : List ι} {l₂ : List κ}, List.Forall₂ R l₁ l₂ →
      List.Forall₂ (fun a b => R a b ∧ b ∈ l₂) l₁ l₂ := by
  intro l₁ l₂ h
  induction h with
  | nil => exact List.Forall₂.nil
  | cons hab _ ih =>
    exact List.Forall₂.cons ⟨hab, List.mem_cons_self _ _⟩
      (ih.imp (fun _ _ hp => ⟨hp.1, List.mem_cons_of_mem _ hp.2⟩))

theorem edge_cx_of_cell_side (tess : Tess ℝ) (x : Int → Point ℝ) (i : Nat) (e : Edge ℝ)
    (vw : Point ℝ × Point ℝ) (h : is_cell_side tess x (x i) e vw) :
    edge_cx Real.sqrt tess x i e
        = abs (turn (x i) vw.1 vw.2) / 2 * ((vw.1.x + vw.2.x + (x i).x) / 3) ∧
      edge_cy Real.sqrt tess x i e
        = abs (turn (x i) vw.1 vw.2) / 2 * ((vw.1.y + vw.2.y + (x i).y) / 3) := by
  have hvol := edge_vol_of_cell_side tess x i e vw h
  obtain ⟨hd, _, _, _⟩ := h
  rcases hd with hd | hd
  · simp only [edge_vol, hd] at hvol
    simp only [edge_cx, edge_cy, hd, hvol]
    constructor <;> ring
  · simp only [edge_vol, hd] at hvol
    simp only [edge_cx, edge_cy, hd, hvol]
    constructor <;> ring

theorem walk_sums_of_cell (tess : Tess ℝ) (x : Int → Point ℝ) (i : Nat)
    (es : List (Edge ℝ)) (V : List (Point ℝ)) (s : ℝ)
    (hsides : List.Forall₂ (is_cell_side tess x (x i)) es (sides V))
    (hs : ∀ vw ∈ sides V, abs (turn (x i) vw.1 vw.2) = s * turn (x i) vw.1 vw.2) :
    (es.map (edge_vol Real.sqrt tess x i)).sum
        = s * ((sides V).map (fun vw => vw.1.x * vw.2.y - vw.2.x * vw.1.y)).sum / 2 ∧
      (es.map (edge_cx Real.sqrt tess x i)).sum
        = s * ((sides V).map (fun vw =>
            (vw.1.x + vw.2.x) * (vw.1.x * vw.2.y - vw.2.x * vw.1.y))).sum / 6 ∧
      (es.map (edge_cy Real.sqrt tess x i)).sum
        = s * ((sides V).map (fun vw =>
            (vw.1.y + vw.2.y) * (vw.1.x * vw.2.y - vw.2.x * vw.1.y))).sum / 6 := by
  have hmem := forall₂_with_mem hsides
  refine ⟨?_, ?_, ?_⟩
  · rw [sum_map_forall₂ (f := edge_vol Real.sqrt tess x i)
      (g := fun vw => turn (x i) vw.1 vw.2 * (s / 2))
      (fun e vw h => by
        beta_reduce
        rw [edge_vol_of_cell_side tess x i e vw h.1, hs vw h.2]; ring) hmem,
      List.sum_map_mul_right, sum_turn_eq_shoelace]
    ring
  · rw [sum_map_forall₂ (f := edge_cx Real.sqrt tess x i)
      (g := fun vw => turn (x i) vw.1 vw.2 * (vw.1.x + vw.2.x + (x i).x) * (s / 6))
      (fun e vw h => by
        beta_reduce
        rw [(edge_cx_of_cell_side tess x i e vw h.1).1, hs vw h.2]; ring) hmem,
      List.sum_map_mul_right, sum_moment_x]
    ring
  · rw [sum_map_forall₂ (f := edge_cy Real.sqrt tess x i)
      (g := fun vw => turn (x i) vw.1 vw.2 * (vw.1.y + vw.2.y + (x i).y) * (s / 6))
      (fun e vw h => by
        beta_reduce
        rw [(edge_cx_of_cell_side tess x i e vw h.1).2, hs vw h.2]; ring) hmem,
      List.sum_map_mul_right, sum_moment_y]
    ring

theorem square_area_pos : 0 < shoelace_area (square_polygon : List (Point ℝ)) := by
  rw [square_area]
  norm_num

section DivisorLemmas

variable {α : Type} [LinearOrderedField α]

end DivisorLemmas

/-- C1 (evaluation at the failing input): on the session where ghost `2` was
inserted on top of local generator `0`, so that the vertex of generator `0`
carries tag `2`, `count_number_of_faces` returns `-1` (its test `id1 != i`),
while `extract_geometry`, which has no such test, returns `7`. -/
theorem extract_disagrees_with_count (sqrt : ℚ → ℚ) :
    count_number_of_faces ghost_on_local = some (-1) ∧
      (extract_geometry sqrt ghost_on_local ghost_on_local_x).map (fun r => r.code)
        = some 7 := by
  constructor
  · decide
  · rfl

/-- C2 (counterexample): a state reached by build then augment in which no
edge around a local generator is infinite or has an unbounded dual (every
dual is a segment), and yet `count_number_of_faces` returns `-1`. -/
theorem validate_fails_without_open_face :
    reached_by_build_augment ghost_on_local ∧
      (∃ tess vt_list, ghost_on_local.ptess = some tess ∧
        ghost_on_local.pvt_list = some vt_list ∧
        ∀ i < ghost_on_local.local_num_particles, ∀ e ∈ walk tess vt_list i,
          e.is_infinite = false ∧ e.dual.is_segment = true ∧ e.dual ≠ Dual.ray) ∧
      count_number_of_faces ghost_on_local = some (-1) := by
  refine ⟨?_, ?_, by decide⟩
  · exact ⟨fun q => q, table_kernel six_point_table, Tess2d.init 0 0, ghost_on_local_x, 2, 5, 1,
      ⟨0, ghost_on_local_built, [2.01 * 0.0, 2.01 * 0.0]⟩, rfl, rfl, rfl⟩
  · refine ⟨_, _, rfl, rfl, ?_⟩
    decide

/-- C2 (amended): on a session holding a kernel in which every local generator
has a non-empty walk, `count_number_of_faces` returns a non-negative value if
and only if every edge around every local generator `i` is finite, has a
bounded segment as dual, and carries `i` as its first tag. -/
theorem validate_succeeds_iff {α : Type} (st : Tess2d α) (tess : Tess α) (vt_list : List Nat)
    (htess : st.ptess = some tess) (hvt : st.pvt_list = some vt_list)
    (hne : ∀ i < st.local_num_particles, walk tess vt_list i ≠ []) :
    (∃ c, count_number_of_faces st = some c ∧ 0 ≤ c) ↔
      ∀ i < st.local_num_particles, ∀ e ∈ walk tess vt_list i,
        e.is_infinite = false ∧ e.dual.is_segment = true ∧
          tess.info e.first_vertex = (i : Int) := by
  have hcount : count_number_of_faces st
      = count_particles tess vt_list (List.range st.local_num_particles) 0 := by
    simp [count_number_of_faces, htess, hvt]
  constructor
  · rintro ⟨c, hc, hpos⟩ i hi e he
    rw [hcount] at hc
    have h := (count_particles_nonneg tess vt_list _ 0 c hc hpos i (List.mem_range.2 hi)).2 e he
    simpa [face_ok, Edge.closed, and_assoc] using h
  · intro h
    have hall : ∀ i ∈ List.range st.local_num_particles,
        walk tess vt_list i ≠ [] ∧ ∀ e ∈ walk tess vt_list i, face_ok tess i e = true := by
      intro i hi
      have hi2 := List.mem_range.1 hi
      refine ⟨hne i hi2, fun e he => ?_⟩
      have := h i hi2 e he
      simp [face_ok, Edge.closed, this.1, this.2.1, this.2.2]
    refine ⟨0 + (counted_total tess vt_list (List.range st.local_num_particles) : Nat), ?_, ?_⟩
    · rw [hcount, count_particles_go tess vt_list _ 0 hall]
    · simp

/-- C2 (amended), instance: the session with two local generators closed by four ghosts. -/
theorem validate_succeeds_iff_witness :
    (closed_pair.ptess = some closed_pair_tess ∧ closed_pair.pvt_list = some [0, 1] ∧
      ∀ i < closed_pair.local_num_particles, walk closed_pair_tess [0, 1] i ≠ []) ∧
    ((∃ c, count_number_of_faces closed_pair = some c ∧ 0 ≤ c) ↔
      ∀ i < closed_pair.local_num_particles, ∀ e ∈ walk closed_pair_tess [0, 1] i,
        e.is_infinite = false ∧ e.dual.is_segment = true ∧
          closed_pair_tess.info e.first_vertex = (i : Int)) :=
  ⟨⟨rfl, rfl, by decide⟩,
    validate_succeeds_iff closed_pair closed_pair_tess [0, 1] rfl rfl (by decide)⟩

/-- C3: when `count_number_of_faces` succeeds on a state whose kernel satisfies
the adapter contract, the value returned is the number of distinct unordered
pairs of adjacent generators of which at least one is local. -/
theorem count_eq_adjacent_pairs {α : Type} (st : Tess2d α) (tess : Tess α)
    (vt_list : List Nat) (c : Int)
    (htess : st.ptess = some tess) (hvt : st.pvt_list = some vt_list)
    (hcount : count_number_of_faces st = some c) (hc : 0 ≤ c)
    (hk : adapter_contract tess vt_list st.local_num_particles) :
    c = ((adjacent_pairs tess vt_list st.local_num_particles).card : Int) := by
  obtain ⟨hown, hnd, hsym, hpos⟩ := hk
  have hcnt : count_number_of_faces st
      = count_particles tess vt_list (List.range st.local_num_particles) 0 := by
    simp [count_number_of_faces, htess, hvt]
  rw [hcnt] at hcount
  rcases count_particles_code tess vt_list _ 0 c hcount with h | h
  · omega
  · rw [h, counted_total_eq_length tess vt_list _ hown,
      ← counted_pairs_toFinset tess vt_list _ hsym hpos,
      List.toFinset_card_of_nodup (counted_pairs_nodup tess vt_list _ hnd)]
    simp

/-- C3, instance: two local generators closed by four ghosts have `7` faces. -/
theorem count_eq_adjacent_pairs_witness :
    (closed_pair.ptess = some closed_pair_tess ∧ closed_pair.pvt_list = some [0, 1] ∧
      count_number_of_faces closed_pair = some 7 ∧ (0 : Int) ≤ 7 ∧
      adapter_contract closed_pair_tess [0, 1] closed_pair.local_num_particles) ∧
    (7 : Int) = ((adjacent_pairs closed_pair_tess [0, 1] closed_pair.local_num_particles).card
      : Int) :=
  ⟨⟨rfl, rfl, by decide, by decide, by unfold adapter_contract; decide⟩,
    count_eq_adjacent_pairs closed_pair closed_pair_tess [0, 1] 7 rfl rfl (by decide)
      (by decide) (by unfold adapter_contract; decide)⟩

/-- C4 (counterexample): after two calls of `update_initial_tess` the ghosts
`(1,2)` and `(-2,0)` both carry tag `2`; `extract_geometry` succeeds with `7`
faces and emits the pair `(0, 2)` at the two indices `1` and `2`. -/
theorem pair_emitted_twice :
    (extract_geometry rat_sqrt twice_augmented second_batch_x).map
        (fun r => (r.code, r.faces.map (fun f => (f.pair_i, f.pair_j))))
      = some (7, [(0, 1), (0, 2), (0, 2), (0, 3), (1, 3), (1, 2), (1, 3)]) := by
  decide

/-- C4 (amended): in a successful `extract_geometry` on a state whose kernel
satisfies the adapter contract, the unordered pairs of the emitted face
records are pairwise distinct (no pair occurs at two indices, in the same or
in the opposite order), and they are exactly the unordered pairs of adjacent
generators of which at least one is local. -/
theorem faces_once_per_pair {α : Type} [LinearOrderedField α] (sqrt : α → α) (st : Tess2d α)
    (x : Int → Point α) (tess : Tess α) (vt_list : List Nat) (r : Extracted α)
    (htess : st.ptess = some tess) (hvt : st.pvt_list = some vt_list)
    (hext : extract_geometry sqrt st x = some r) (hcode : 0 ≤ r.code)
    (hk : adapter_contract tess vt_list st.local_num_particles) :
    (r.faces.map (fun f => s(f.pair_i, f.pair_j))).Nodup ∧
      (r.faces.map (fun f => s(f.pair_i, f.pair_j))).toFinset
        = adjacent_pairs tess vt_list st.local_num_particles ∧
      ∀ f ∈ r.faces, f.pair_i < f.pair_j := by
  obtain ⟨hown, hnd, hsym, hpos⟩ := hk
  obtain ⟨hall, _, hfaces, _⟩ :=
    extract_geometry_success sqrt st x tess vt_list r htess hvt hext hcode
  have hpairs := pairs_of_faces sqrt tess vt_list x st.local_num_particles
    (fun i hi => (hall i hi).2) hown
  rw [hfaces, hpairs]
  refine ⟨counted_pairs_nodup tess vt_list _ hnd,
    counted_pairs_toFinset tess vt_list _ hsym hpos, ?_⟩
  intro f hf
  simp only [List.mem_flatMap, walk_faces, List.mem_filterMap] at hf
  obtain ⟨i, _, e, _, hef⟩ := hf
  unfold edge_face at hef
  cases hd : e.dual with
  | segment p1 p2 =>
    by_cases hlt : tess.info e.first_vertex < tess.info e.second_vertex
    · simp only [hd, hlt, if_true, Option.some.injEq] at hef
      rw [← hef]
      exact hlt
    · simp [hd, hlt] at hef
  | ray => simp [hd] at hef
  | other => simp [hd] at hef

/-- C4 (amended), instance: two local generators closed by four ghosts. -/
theorem faces_once_per_pair_witness :
    (closed_pair.ptess = some closed_pair_tess ∧ closed_pair.pvt_list = some [0, 1] ∧
      extract_geometry rat_sqrt closed_pair six_point_x = some closed_pair_extracted ∧
      0 ≤ closed_pair_extracted.code ∧
      adapter_contract closed_pair_tess [0, 1] closed_pair.local_num_particles) ∧
    ((closed_pair_extracted.faces.map (fun f => s(f.pair_i, f.pair_j))).Nodup ∧
      (closed_pair_extracted.faces.map (fun f => s(f.pair_i, f.pair_j))).toFinset
        = adjacent_pairs closed_pair_tess [0, 1] closed_pair.local_num_particles ∧
      ∀ f ∈ closed_pair_extracted.faces, f.pair_i < f.pair_j) :=
  ⟨⟨rfl, rfl, rfl, by decide, by unfold adapter_contract; decide⟩,
    faces_once_per_pair rat_sqrt closed_pair six_point_x closed_pair_tess [0, 1]
      closed_pair_extracted rfl rfl rfl (by decide) (by unfold adapter_contract; decide)⟩

/-- C5 (evaluation at the failing input): with two local generators (`N = 2`)
and ghost `2` inserted on top of local generator `0`, `extract_geometry`
succeeds and writes the ghost index `2` into `pair_i` for its first three faces. -/
theorem ghost_index_in_pair_i (sqrt : ℚ → ℚ) :
    ghost_on_local.local_num_particles = 2 ∧
      (extract_geometry sqrt ghost_on_local ghost_on_local_x).map
          (fun r => (r.code, r.faces.map (fun f => f.pair_i)))
        = some (7, [2, 2, 2, 1, 1, 1, 1]) := by
  constructor
  · rfl
  · rfl

/-- C6 (counterexample): for the four generators `(0,0)`, `(2,0)`, `(0,2)`,
`(-2,-2)` and `huge = 100`, generator `1` has a finite edge whose dual is a
ray, the build succeeds, and `radius[1]` is `2.01 * sqrt 100`, not `100`. -/
theorem ray_radius_is_not_huge :
    (∃ e ∈ walk (built_tess (fresh_kernel star_table) (star_x : Int → Point ℝ) 4)
        (built_vt_list (fresh_kernel star_table) (star_x : Int → Point ℝ) 4) 1,
        e.is_infinite = false ∧ e.dual = Dual.ray) ∧
      (build_initial_tess Real.sqrt (fresh_kernel star_table) (Tess2d.init 0 0) star_x 4
          (100 : ℝ)).map (fun b => (b.code, b.radius[1]?))
        = some (0, some (2.01 * Real.sqrt 100)) ∧
      (2.01 * Real.sqrt 100 : ℝ) ≠ 100 := by
  refine ⟨⟨⟨false, 1, 2, Dual.ray⟩, List.mem_cons_self _ _, rfl, rfl⟩, rfl, ?_⟩
  have h : Real.sqrt 100 = 10 := by
    rw [show (100 : ℝ) = 10 ^ 2 by norm_num]
    exact Real.sqrt_sq (by norm_num)
  rw [h]
  norm_num

/-- C6 (amended): in a successful `build_initial_tess`, for every local
generator `i` that has a finite edge whose dual is a ray, the radius written
is `2.01 * sqrt(huge)`, provided `huge` is at least the squared distance from
the position of `i` to every endpoint of its segment duals. -/
theorem radius_of_open_cell {α : Type} [LinearOrderedField α] (sqrt : α → α) (K : Kernel α)
    (st : Tess2d α) (x : Int → Point α) (N : Nat) (huge : α) (b : Built α) (i : Nat)
    (hb : build_initial_tess sqrt K st x N huge = some b) (hcode : b.code = 0) (hi : i < N)
    (hray : ∃ e ∈ walk (built_tess K x N) (built_vt_list K x N) i,
      e.is_infinite = false ∧ e.dual = Dual.ray)
    (hhuge : ∀ d ∈ endpoint_sq_dists (x i) (walk (built_tess K x N) (built_vt_list K x N) i),
      d ≤ huge) :
    b.radius[i]? = some (2.01 * sqrt huge) := by
  obtain ⟨_, hrad⟩ := build_initial_tess_success sqrt K st x N huge b hb hcode
  rw [hrad, List.getElem?_map, List.getElem?_range hi]
  simp only [Option.map_some', walk_radius]
  rw [foldl_build_step_ray (x i) huge _ 0 hray hhuge]

/-- C6 (amended), instance: generator `1` of the four generators of `star_x`. -/
theorem radius_of_open_cell_witness :
    (build_initial_tess rat_sqrt (fresh_kernel star_table) (Tess2d.init 0 0) star_x 4 100
        = some star_built ∧ star_built.code = 0 ∧ 1 < 4 ∧
      (∃ e ∈ walk (built_tess (fresh_kernel star_table) (star_x : Int → Point ℚ) 4)
          (built_vt_list (fresh_kernel star_table) (star_x : Int → Point ℚ) 4) 1,
        e.is_infinite = false ∧ e.dual = Dual.ray) ∧
      ∀ d ∈ endpoint_sq_dists ((star_x : Int → Point ℚ) (1 : Nat))
          (walk (built_tess (fresh_kernel star_table) (star_x : Int → Point ℚ) 4)
            (built_vt_list (fresh_kernel star_table) (star_x : Int → Point ℚ) 4) 1),
        d ≤ 100) ∧
    star_built.radius[1]? = some (2.01 * rat_sqrt 100) :=
  ⟨⟨rfl, rfl, by decide, by decide, star_dists_le⟩,
    radius_of_open_cell rat_sqrt (fresh_kernel star_table) (Tess2d.init 0 0) star_x 4 100
      star_built 1 rfl rfl (by decide) (by decide) star_dists_le⟩

/-- C8: when every local generator has a non-empty walk, `build_initial_tess`
returns; it returns `-1` if and only if some local generator `i` has a finite
edge whose first tag differs from `i` (infinite edges are skipped and never
count), and it returns `0` otherwise. -/
theorem build_returns_minus_one_iff {α : Type} [LinearOrderedField α] (sqrt : α → α)
    (K : Kernel α) (st : Tess2d α) (x : Int → Point α) (N : Nat) (huge : α)
    (hne : ∀ i < N, walk (built_tess K x N) (built_vt_list K x N) i ≠ []) :
    ∃ b, build_initial_tess sqrt K st x N huge = some b ∧
      (b.code = -1 ↔
        ∃ i < N, ∃ e ∈ walk (built_tess K x N) (built_vt_list K x N) i,
          e.is_infinite = false ∧ (built_tess K x N).info e.first_vertex ≠ (i : Int)) ∧
      (b.code ≠ -1 → b.code = 0) := by
  obtain ⟨c, out, hp⟩ := build_particles_isSome sqrt (built_tess K x N) (built_vt_list K x N)
    x huge (List.range N) [] (fun i hi => hne i (List.mem_range.1 hi))
  refine ⟨_, by rw [build_initial_tess_eq, hp]; rfl, ?_, ?_⟩
  · simp only
    rcases build_particles_code sqrt _ _ x huge _ _ c out hp with ⟨h0, hgood⟩ | ⟨h1, j, hj, e, he, hbad⟩
    · constructor
      · intro h; omega
      · rintro ⟨i, hi, e, he, hinf, hown⟩
        have := (hgood i (List.mem_range.2 hi)).2 e he
        simp [owner_mismatch, hinf, hown] at this
    · constructor
      · intro _
        simp only [owner_mismatch, Bool.and_eq_true, Bool.not_eq_true', decide_eq_true_eq] at hbad
        exact ⟨j, List.mem_range.1 hj, e, he, hbad.1, hbad.2⟩
      · intro _; exact h1
  · simp only
    rcases build_particles_code sqrt _ _ x huge _ _ c out hp with ⟨h0, _⟩ | ⟨h1, _⟩
    · intro _; exact h0
    · intro h; exact absurd h1 h

/-- C8, instance: the four generators of `star_x` all have non-empty walks. -/
theorem build_returns_minus_one_iff_witness :
    (∀ i < 4, walk (built_tess (fresh_kernel star_table) (star_x : Int → Point ℚ) 4)
        (built_vt_list (fresh_kernel star_table) (star_x : Int → Point ℚ) 4) i ≠ []) ∧
    ∃ b, build_initial_tess rat_sqrt (fresh_kernel star_table) (Tess2d.init 0 0) star_x 4 100
        = some b ∧
      (b.code = -1 ↔
        ∃ i < 4, ∃ e ∈ walk (built_tess (fresh_kernel star_table) (star_x : Int → Point ℚ) 4)
            (built_vt_list (fresh_kernel star_table) (star_x : Int → Point ℚ) 4) i,
          e.is_infinite = false ∧
            (built_tess (fresh_kernel star_table) (star_x : Int → Point ℚ) 4).info
              e.first_vertex ≠ (i : Int)) ∧
      (b.code ≠ -1 → b.code = 0) :=
  ⟨by decide,
    build_returns_minus_one_iff rat_sqrt (fresh_kernel star_table) (Tess2d.init 0 0) star_x 4 100
      (by decide)⟩

/-- C9 (counterexample): after a build and a first `update_initial_tess`, a
second `update_initial_tess` in the same pass is not rejected: it returns `0`
and changes the session (the kernel grows from `4` to `6` vertices). -/
theorem second_augment_is_accepted :
    build_initial_tess rat_sqrt (table_kernel six_point_table) (Tess2d.init 0 0) six_point_x 2 100
        = some ⟨0, six_point_built, [2.01 * rat_sqrt 0.0, 2.01 * rat_sqrt 0.0]⟩ ∧
      update_initial_tess (table_kernel six_point_table) six_point_built six_point_x 2
        = some (0, once_augmented) ∧
      update_initial_tess (table_kernel six_point_table) once_augmented second_batch_x 2
        = some (0, twice_augmented) ∧
      once_augmented.ptess.map (fun t => t.points.length) = some 4 ∧
      twice_augmented.ptess.map (fun t => t.points.length) = some 6 :=
  ⟨rfl, rfl, rfl, by decide, by decide⟩

/-- C9 (amended): `update_initial_tess` makes no life-cycle check.  On every
session that holds a kernel, whether or not it was augmented before, it
returns `0`, inserts its `M` points, sets `tot_num_particles` to `N + M` and
leaves the vertex table and `local_num_particles` as they were. -/
theorem augment_is_never_rejected {α : Type} [LinearOrderedField α] (K : Kernel α)
    (st : Tess2d α) (x : Int → Point α) (M : Nat) (tess : Tess α)
    (htess : st.ptess = some tess) :
    ∃ st1, update_initial_tess K st x M = some (0, st1) ∧
      st1.ptess = some (insert_ghosts K
        ((List.range' st.local_num_particles M).map (fun i => x (i : Int)))
        st.local_num_particles tess) ∧
      st1.tot_num_particles = st.local_num_particles + M ∧
      st1.pvt_list = st.pvt_list ∧
      st1.local_num_particles = st.local_num_particles := by
  refine ⟨{ st with
      tot_num_particles := st.local_num_particles + M
      ptess := some (insert_ghosts K
        ((List.range' st.local_num_particles M).map (fun i => x (i : Int)))
        st.local_num_particles tess) }, ?_, rfl, rfl, rfl, rfl⟩
  simp [update_initial_tess, htess]

/-- C9 (amended), instance: the second augmentation of the six-point session. -/
theorem augment_is_never_rejected_witness :
    once_augmented.ptess
        = some (insert_ghosts (table_kernel six_point_table)
            ((List.range' 2 2).map (fun i => six_point_x (i : Int))) 2
            (built_tess (table_kernel six_point_table) six_point_x 2)) ∧
    ∃ st1, update_initial_tess (table_kernel six_point_table) once_augmented second_batch_x 2
        = some (0, st1) ∧
      st1.ptess = some (insert_ghosts (table_kernel six_point_table)
        ((List.range' once_augmented.local_num_particles 2).map
          (fun i => second_batch_x (i : Int)))
        once_augmented.local_num_particles
        (insert_ghosts (table_kernel six_point_table)
            ((List.range' 2 2).map (fun i => six_point_x (i : Int))) 2
            (built_tess (table_kernel six_point_table) six_point_x 2))) ∧
      st1.tot_num_particles = once_augmented.local_num_particles + 2 ∧
      st1.pvt_list = once_augmented.pvt_list ∧
      st1.local_num_particles = once_augmented.local_num_particles :=
  ⟨rfl, augment_is_never_rejected (table_kernel six_point_table) once_augmented second_batch_x 2
    _ rfl⟩

/-- C10: for a local generator `i` whose cell is the closed polygon `V` (the
duals of the edges walked around `i` are the sides of `V` in order), with
every side on the perpendicular bisector of `p_i` and the neighbour behind it
and `p_i` on one side of all sides, `extract_geometry` succeeds when every
walk is closed and the `volume[i]` it writes, the sum of `0.25 * |p2 - p1| *
|p_n - p_i|` over the walk, is the shoelace area of `V`. -/
theorem volume_eq_shoelace (st : Tess2d ℝ) (x : Int → Point ℝ) (tess : Tess ℝ)
    (vt_list : List Nat) (i : Nat) (V : List (Point ℝ))
    (htess : st.ptess = some tess) (hvt : st.pvt_list = some vt_list)
    (hclosed : ∀ j < st.local_num_particles,
      walk tess vt_list j ≠ [] ∧ ∀ e ∈ walk tess vt_list j, e.closed = true)
    (hi : i < st.local_num_particles)
    (hsides : List.Forall₂ (is_cell_side tess x (x i)) (walk tess vt_list i) (sides V))
    (hin : contains_generator (x i) V) :
    ∃ r, extract_geometry Real.sqrt st x = some r ∧ 0 ≤ r.code ∧
      (r.cells[i]?).map (fun c => c.volume) = some (shoelace_area V) := by
  have hex : extract_geometry Real.sqrt st x
      = extract_particles Real.sqrt tess vt_list x (List.range st.local_num_particles) [] [] := by
    simp [extract_geometry, htess, hvt]
  have hgo := extract_particles_go Real.sqrt tess vt_list x (List.range st.local_num_particles)
    [] [] (fun j hj => hclosed j (List.mem_range.1 hj))
  refine ⟨_, by rw [hex, hgo], Int.natCast_nonneg _, ?_⟩
  simp only [List.nil_append, List.getElem?_map, List.getElem?_range hi, Option.map_some',
    walk_cell, walk_vol, Option.some.injEq]
  rw [sum_map_forall₂ (fun e vw h => edge_vol_of_cell_side tess x i e vw h) hsides,
    shoelace_area, ← sum_turn_eq_shoelace (x i) V]
  rcases hin with h | h
  · have h1 := sum_abs_half_of_nonneg (sides V) (fun vw => turn (x i) vw.1 vw.2) h
    exact h1
  · have h1 := sum_abs_half_of_nonpos (sides V) (fun vw => turn (x i) vw.1 vw.2) h
    exact h1

/-- C10, instance: the generator at the origin closed by the four ghosts
`(±2, 0)`, `(0, ±2)`; its cell is the square with corners `(±1, ±1)`. -/
theorem volume_eq_shoelace_witness :
    ((square_session : Tess2d ℝ).ptess = some square_tess ∧
      (square_session : Tess2d ℝ).pvt_list = some [0] ∧
      (∀ j < (square_session : Tess2d ℝ).local_num_particles,
        walk (square_tess : Tess ℝ) [0] j ≠ [] ∧
          ∀ e ∈ walk (square_tess : Tess ℝ) [0] j, e.closed = true) ∧
      0 < (square_session : Tess2d ℝ).local_num_particles ∧
      List.Forall₂ (is_cell_side (square_tess : Tess ℝ) square_x (square_x (0 : Nat)))
        (walk (square_tess : Tess ℝ) [0] 0) (sides (square_polygon : List (Point ℝ))) ∧
      contains_generator (square_x (0 : Nat)) (square_polygon : List (Point ℝ))) ∧
    ∃ r, extract_geometry Real.sqrt (square_session : Tess2d ℝ) square_x = some r ∧
      0 ≤ r.code ∧
      (r.cells[0]?).map (fun c => c.volume) = some (shoelace_area square_polygon) :=
  ⟨⟨rfl, rfl, square_closed, Nat.zero_lt_one, square_is_cell, square_contains⟩,
    volume_eq_shoelace square_session square_x square_tess [0] 0 square_polygon rfl rfl
      square_closed Nat.zero_lt_one square_is_cell square_contains⟩

/-- C14: on a session holding a kernel in which every local generator has a
non-empty walk, `extract_geometry` returns; it returns `-1` whenever some
local generator has an edge that is infinite or whose dual is not a bounded
segment, and a non-negative value, the number of face records written, when
no local generator has such an edge. -/
theorem extract_returns_sentinel_or_count {α : Type} [LinearOrderedField α] (sqrt : α → α)
    (st : Tess2d α) (x : Int → Point α) (tess : Tess α) (vt_list : List Nat)
    (htess : st.ptess = some tess) (hvt : st.pvt_list = some vt_list)
    (hne : ∀ i < st.local_num_particles, walk tess vt_list i ≠ []) :
    ∃ r, extract_geometry sqrt st x = some r ∧
      ((∃ i < st.local_num_particles, ∃ e ∈ walk tess vt_list i,
          e.is_infinite = true ∨ e.dual.is_segment = false) → r.code = -1) ∧
      ((∀ i < st.local_num_particles, ∀ e ∈ walk tess vt_list i,
          e.is_infinite = false ∧ e.dual.is_segment = true) →
        0 ≤ r.code ∧ r.code = (r.faces.length : Int)) := by
  have hex : extract_geometry sqrt st x
      = extract_particles sqrt tess vt_list x (List.range st.local_num_particles) [] [] := by
    simp [extract_geometry, htess, hvt]
  obtain ⟨r, hr⟩ := extract_particles_isSome sqrt tess vt_list x
    (List.range st.local_num_particles) [] [] (fun i hi => hne i (List.mem_range.1 hi))
  refine ⟨r, by rw [hex, hr], ?_, ?_⟩
  · rintro ⟨i, hi, e, he, hbad⟩
    rcases extract_particles_code sqrt tess vt_list x _ [] [] r hr with h | h
    · exact h
    · exfalso
      have hpos : 0 ≤ r.code := by rw [h]; exact Int.natCast_nonneg _
      have hc := (extract_particles_nonneg sqrt tess vt_list x _ [] [] r hr hpos i
        (List.mem_range.2 hi)).2 e he
      simp only [Edge.closed, Bool.and_eq_true, Bool.not_eq_true'] at hc
      rcases hbad with hb | hb
      · rw [hc.1] at hb; cases hb
      · rw [hc.2] at hb; cases hb
  · intro hall
    have hgo := extract_particles_go sqrt tess vt_list x (List.range st.local_num_particles)
      [] [] (fun i hi => ⟨hne i (List.mem_range.1 hi), fun e he => by
        have := hall i (List.mem_range.1 hi) e he
        simp [Edge.closed, this.1, this.2]⟩)
    rw [hgo] at hr
    simp only [Option.some.injEq] at hr
    rw [← hr]
    exact ⟨Int.natCast_nonneg _, rfl⟩

/-- C14, instance: the session with two local generators closed by four ghosts. -/
theorem extract_returns_sentinel_or_count_witness :
    (closed_pair.ptess = some closed_pair_tess ∧ closed_pair.pvt_list = some [0, 1] ∧
      ∀ i < closed_pair.local_num_particles, walk closed_pair_tess [0, 1] i ≠ []) ∧
    ∃ r, extract_geometry rat_sqrt closed_pair six_point_x = some r ∧
      ((∃ i < closed_pair.local_num_particles, ∃ e ∈ walk closed_pair_tess [0, 1] i,
          e.is_infinite = true ∨ e.dual.is_segment = false) → r.code = -1) ∧
      ((∀ i < closed_pair.local_num_particles, ∀ e ∈ walk closed_pair_tess [0, 1] i,
          e.is_infinite = false ∧ e.dual.is_segment = true) →
        0 ≤ r.code ∧ r.code = (r.faces.length : Int)) :=
  ⟨⟨rfl, rfl, by decide⟩,
    extract_returns_sentinel_or_count rat_sqrt closed_pair six_point_x closed_pair_tess [0, 1]
      rfl rfl (by decide)⟩

/-- C18: when two kernels give the same edges around local generator `i` in a
different order, and `huge` is at least the squared distance from `p_i` to
every endpoint of the segment duals of `i`, two successful runs of
`build_initial_tess` write the same `radius[i]`. -/
theorem radius_invariant_under_reordering {α : Type} [LinearOrderedField α] (sqrt : α → α)
    (K K1 : Kernel α) (st st1 : Tess2d α) (x : Int → Point α) (N : Nat) (huge : α)
    (b b1 : Built α) (i : Nat)
    (hb : build_initial_tess sqrt K st x N huge = some b) (hcode : b.code = 0)
    (hb1 : build_initial_tess sqrt K1 st1 x N huge = some b1) (hcode1 : b1.code = 0)
    (hi : i < N)
    (hperm : (walk (built_tess K x N) (built_vt_list K x N) i).Perm
      (walk (built_tess K1 x N) (built_vt_list K1 x N) i))
    (hhuge : ∀ d ∈ endpoint_sq_dists (x i) (walk (built_tess K x N) (built_vt_list K x N) i),
      d ≤ huge) :
    ∃ ρ, b.radius[i]? = some ρ ∧ b1.radius[i]? = some ρ := by
  obtain ⟨_, hrad⟩ := build_initial_tess_success sqrt K st x N huge b hb hcode
  obtain ⟨_, hrad1⟩ := build_initial_tess_success sqrt K1 st1 x N huge b1 hb1 hcode1
  refine ⟨walk_radius sqrt (built_tess K x N) (built_vt_list K x N) x huge i, ?_, ?_⟩
  · rw [hrad, List.getElem?_map, List.getElem?_range hi]
    rfl
  · rw [hrad1, List.getElem?_map, List.getElem?_range hi]
    simp only [Option.map_some', walk_radius, zero_lit]
    rw [foldl_build_step_perm (x i) huge hperm hhuge]

/-- C18, instance: generator `1` of the four generators of `star_x`, walked in two orders. -/
theorem radius_invariant_under_reordering_witness :
    (build_initial_tess rat_sqrt (fresh_kernel star_table) (Tess2d.init 0 0) star_x 4 100
        = some star_built ∧ star_built.code = 0 ∧
      build_initial_tess rat_sqrt (fresh_kernel star_table_reordered) (Tess2d.init 0 0) star_x 4
        100 = some star_built_reordered ∧ star_built_reordered.code = 0 ∧ 1 < 4 ∧
      (walk (built_tess (fresh_kernel star_table) (star_x : Int → Point ℚ) 4)
          (built_vt_list (fresh_kernel star_table) (star_x : Int → Point ℚ) 4) 1).Perm
        (walk (built_tess (fresh_kernel star_table_reordered) (star_x : Int → Point ℚ) 4)
          (built_vt_list (fresh_kernel star_table_reordered) (star_x : Int → Point ℚ) 4) 1) ∧
      ∀ d ∈ endpoint_sq_dists ((star_x : Int → Point ℚ) (1 : Nat))
          (walk (built_tess (fresh_kernel star_table) (star_x : Int → Point ℚ) 4)
            (built_vt_list (fresh_kernel star_table) (star_x : Int → Point ℚ) 4) 1),
        d ≤ 100) ∧
    ∃ ρ, star_built.radius[1]? = some ρ ∧ star_built_reordered.radius[1]? = some ρ :=
  ⟨⟨rfl, rfl, rfl, rfl, by decide, by decide, star_dists_le⟩,
    radius_invariant_under_reordering rat_sqrt (fresh_kernel star_table)
      (fresh_kernel star_table_reordered) (Tess2d.init 0 0) (Tess2d.init 0 0) star_x 4 100
      star_built star_built_reordered 1 rfl rfl rfl rfl (by decide) (by decide) star_dists_le⟩

/-- C13 (counterexample): for the four corners of the unit square and
`huge = 100`, `build_initial_tess` succeeds and writes `2.01 * sqrt 100` for
each of the four generators, which is not `2.01 * sqrt 0.5`. -/
theorem unit_square_radius_is_huge :
    (build_initial_tess Real.sqrt (fresh_kernel unit_square_table) (Tess2d.init 0 0)
        unit_square_x 4 (100 : ℝ)).map (fun b => (b.code, b.radius))
      = some (0, [2.01 * Real.sqrt 100, 2.01 * Real.sqrt 100, 2.01 * Real.sqrt 100,
          2.01 * Real.sqrt 100]) ∧
      (2.01 * Real.sqrt 100 : ℝ) ≠ 2.01 * Real.sqrt 0.5 := by
  refine ⟨rfl, ?_⟩
  have h : Real.sqrt 100 = 10 := by
    rw [show (100 : ℝ) = 10 ^ 2 by norm_num]
    exact Real.sqrt_sq (by norm_num)
  have h2 : Real.sqrt 0.5 ≤ 1 := by
    have := Real.sqrt_le_sqrt (show (0.5 : ℝ) ≤ 1 by norm_num)
    rwa [Real.sqrt_one] at this
  rw [h]
  generalize Real.sqrt 0.5 = s at h2
  intro heq
  have h3 : (2.01 : ℝ) * s ≤ 2.01 * 1 := mul_le_mul_of_nonneg_left h2 (by norm_num)
  rw [← heq] at h3
  norm_num at h3

/-- C13 (amended): for the four corners of the unit square and no other point,
whatever the diagonal and the order of the walks the kernel chooses, every
generator has a finite edge whose dual is a ray, so `build_initial_tess`
succeeds and writes `radius[i] = 2.01 * sqrt(huge)` for each of the four
generators as soon as `huge ≥ 0.5`, the squared distance from every corner
to the Voronoi vertex `(0.5, 0.5)`. -/
theorem unit_square_radius {α : Type} [LinearOrderedField α] (sqrt : α → α) (K : Kernel α)
    (st : Tess2d α) (huge : α)
    (hans : unit_square_answers (built_tess K unit_square_x 4) (built_vt_list K unit_square_x 4))
    (hhuge : 1 / 2 ≤ huge) :
    ∃ b, build_initial_tess sqrt K st unit_square_x 4 huge = some b ∧ b.code = 0 ∧
      b.radius = [2.01 * sqrt huge, 2.01 * sqrt huge, 2.01 * sqrt huge, 2.01 * sqrt huge] := by
  have hgood : ∀ i ∈ List.range 4,
      walk (built_tess K unit_square_x 4) (built_vt_list K unit_square_x 4) i ≠ [] ∧
        ∀ e ∈ walk (built_tess K unit_square_x 4) (built_vt_list K unit_square_x 4) i,
          owner_mismatch (built_tess K unit_square_x 4) i e = false := by
    intro i hi
    obtain ⟨hne, hown, _, _⟩ := hans i (List.mem_range.1 hi)
    refine ⟨hne, fun e he => ?_⟩
    by_cases hinf : e.is_infinite = true
    · simp [owner_mismatch, hinf]
    · have hf : e.is_infinite = false := by simpa using hinf
      simp [owner_mismatch, hf, hown e he hf]
  have hgo := build_particles_go sqrt (built_tess K unit_square_x 4)
    (built_vt_list K unit_square_x 4) unit_square_x huge (List.range 4) [] hgood
  have hrad : ∀ i < 4, walk_radius sqrt (built_tess K unit_square_x 4)
      (built_vt_list K unit_square_x 4) unit_square_x huge i = 2.01 * sqrt huge := by
    intro i hi
    simp only [walk_radius]
    rw [foldl_build_step_ray _ huge _ 0 (hans i hi).2.2.1
      (unit_square_dists_le _ _ huge hans hhuge i hi)]
  refine ⟨_, by rw [build_initial_tess_eq, hgo]; rfl, rfl, ?_⟩
  simp only [List.nil_append]
  have hr : List.range 4 = [0, 1, 2, 3] := rfl
  rw [hr]
  simp only [List.map_cons, List.map_nil, hrad 0 (by decide), hrad 1 (by decide),
    hrad 2 (by decide), hrad 3 (by decide)]

/-- C13 (amended), instance: the walks of `unit_square_table`, with `huge = 100`. -/
theorem unit_square_radius_witness :
    (unit_square_answers
        (built_tess (fresh_kernel unit_square_table) (unit_square_x : Int → Point ℚ) 4)
        (built_vt_list (fresh_kernel unit_square_table) (unit_square_x : Int → Point ℚ) 4) ∧
      (1 / 2 : ℚ) ≤ 100) ∧
    ∃ b, build_initial_tess rat_sqrt (fresh_kernel unit_square_table) (Tess2d.init 0 0)
        unit_square_x 4 100 = some b ∧ b.code = 0 ∧
      b.radius = [2.01 * rat_sqrt 100, 2.01 * rat_sqrt 100, 2.01 * rat_sqrt 100,
        2.01 * rat_sqrt 100] :=
  ⟨⟨unit_square_table_answers, by norm_num⟩,
    unit_square_radius rat_sqrt (fresh_kernel unit_square_table) (Tess2d.init 0 0) 100
      unit_square_table_answers (by norm_num)⟩

/-- C15: on a session that holds a kernel (after build with `N` local
generators), `update_initial_tess` with `M` ghosts returns `0` and leaves the
vertex table and `local_num_particles` as they were; the triangulation it
leaves is reached by exactly `M` calls of `insert`, the `k`-th of them
(`0 ≤ k < M`) with the point of slot `N + k` on the triangulation left by the
turn before, each followed by the assignment of `N + k` to the `info()` of the
vertex that this call returned and by nothing else. -/
theorem augment_inserts_and_tags {α : Type} [LinearOrderedField α] (K : Kernel α)
    (st : Tess2d α) (x : Int → Point α) (M : Nat) (tess : Tess α)
    (htess : st.ptess = some tess) :
    ∃ st1, update_initial_tess K st x M = some (0, st1) ∧
      st1.pvt_list = st.pvt_list ∧
      st1.local_num_particles = st.local_num_particles ∧
      st1.tot_num_particles = st.local_num_particles + M ∧
      ∃ ts : List (Tess α), ts.length = M + 1 ∧ ts[0]? = some tess ∧ st1.ptess = ts[M]? ∧
        ∀ k < M, ∃ t t1, ts[k]? = some t ∧ ts[k + 1]? = some t1 ∧
          t1.points = (K.insert t (x ((st.local_num_particles + k : Nat) : Int))).1.points ∧
          t1.incident_edges
            = (K.insert t (x ((st.local_num_particles + k : Nat) : Int))).1.incident_edges ∧
          t1.info (K.insert t (x ((st.local_num_particles + k : Nat) : Int))).2
            = ((st.local_num_particles + k : Nat) : Int) ∧
          ∀ h, h ≠ (K.insert t (x ((st.local_num_particles + k : Nat) : Int))).2 →
            t1.info h = (K.insert t (x ((st.local_num_particles + k : Nat) : Int))).1.info h := by
  refine ⟨{ st with
      tot_num_particles := st.local_num_particles + M
      ptess := some (insert_ghosts K (ghost_particles x st.local_num_particles M)
        st.local_num_particles tess) }, ?_, rfl, rfl, rfl,
    ghost_states K (ghost_particles x st.local_num_particles M) st.local_num_particles tess,
    ?_, ghost_states_head _ _ _ _, ?_, ?_⟩
  · simp [update_initial_tess, htess, ghost_particles]
  · rw [length_ghost_states, length_ghost_particles]
  · have h := ghost_states_last K (ghost_particles x st.local_num_particles M)
      st.local_num_particles tess
    rw [length_ghost_particles] at h
    rw [h]
  · intro k hk
    have hp : (ghost_particles x st.local_num_particles M)[k]?
        = some (x ((st.local_num_particles + k : Nat) : Int)) := by
      rw [ghost_particles_eq, List.getElem?_map, List.getElem?_range' _ _ hk]
      simp
    obtain ⟨t, h1, h2⟩ := ghost_states_step K _ st.local_num_particles tess k _ hp
    refine ⟨t, _, h1, h2, rfl, rfl, ?_, ?_⟩
    · simp [Tess.set_info]
    · intro h hne
      simp only [Tess.set_info]
      exact Function.update_noteq hne _ _

/-- C15, instance: the four ghosts of the six-point session, inserted after its build. -/
theorem augment_inserts_and_tags_witness :
    six_point_built.ptess = some (built_tess (table_kernel six_point_table) six_point_x 2) ∧
    ∃ st1, update_initial_tess (table_kernel six_point_table) six_point_built six_point_x 4
        = some (0, st1) ∧
      st1.pvt_list = six_point_built.pvt_list ∧
      st1.local_num_particles = six_point_built.local_num_particles ∧
      st1.tot_num_particles = six_point_built.local_num_particles + 4 ∧
      ∃ ts : List (Tess ℚ), ts.length = 4 + 1 ∧
        ts[0]? = some (built_tess (table_kernel six_point_table) six_point_x 2) ∧
        st1.ptess = ts[4]? ∧
        ∀ k < 4, ∃ t t1, ts[k]? = some t ∧ ts[k + 1]? = some t1 ∧
          t1.points = ((table_kernel six_point_table).insert t
            (six_point_x ((six_point_built.local_num_particles + k : Nat) : Int))).1.points ∧
          t1.incident_edges = ((table_kernel six_point_table).insert t
            (six_point_x
              ((six_point_built.local_num_particles + k : Nat) : Int))).1.incident_edges ∧
          t1.info ((table_kernel six_point_table).insert t
              (six_point_x ((six_point_built.local_num_particles + k : Nat) : Int))).2
            = ((six_point_built.local_num_particles + k : Nat) : Int) ∧
          ∀ h, h ≠ ((table_kernel six_point_table).insert t
              (six_point_x ((six_point_built.local_num_particles + k : Nat) : Int))).2 →
            t1.info h = ((table_kernel six_point_table).insert t
              (six_point_x ((six_point_built.local_num_particles + k : Nat) : Int))).1.info h :=
  ⟨rfl, augment_inserts_and_tags (table_kernel six_point_table) six_point_built six_point_x 4
    _ rfl⟩

/-- C19: with a kernel whose `insert` returns a fresh vertex for each inserted
point, after `build_initial_tess` with `N` generators and one
`update_initial_tess` with `M` ghosts the triangulation has `N + M` vertices,
their tags are pairwise distinct and are exactly `0 … N+M-1`, entry `i` of the
vertex table holds the vertex tagged `i`, and hence the tag `id2` of every
neighbour vertex met by a walk satisfies `0 ≤ id2 < N + M`. -/
theorem tags_after_build_and_augment {α : Type} [LinearOrderedField α] (sqrt : α → α)
    (K : Kernel α) (st : Tess2d α) (x x1 : Int → Point α) (N M : Nat) (huge : α)
    (hK : K.fresh)
    (hne : ∀ i < N, walk (built_tess K x N) (built_vt_list K x N) i ≠ []) :
    ∃ b st2 tess vt_list,
      build_initial_tess sqrt K st x N huge = some b ∧
      update_initial_tess K b.self x1 M = some (0, st2) ∧
      st2.ptess = some tess ∧ st2.pvt_list = some vt_list ∧
      tess.points.length = N + M ∧
      (List.range (N + M)).map tess.info = (List.range (N + M)).map (fun (k : Nat) => (k : Int)) ∧
      ((List.range (N + M)).map tess.info).Nodup ∧
      (∀ i < N, ∃ vi, vt_list[i]? = some vi ∧ tess.info vi = (i : Int)) ∧
      (∀ i < N, ∀ e ∈ walk tess vt_list i, e.second_vertex < tess.points.length →
        0 ≤ tess.info e.second_vertex ∧ tess.info e.second_vertex < ((N + M : Nat) : Int)) := by
  obtain ⟨c, out, hp⟩ := build_particles_isSome sqrt (built_tess K x N) (built_vt_list K x N)
    x huge (List.range N) [] (fun i hi => hne i (List.mem_range.1 hi))
  have hloc := insert_locals_fresh K hK x N 0 K.new_tess [] (by rw [hK.1]; rfl)
  rw [← List.range_eq_range'] at hloc
  obtain ⟨hl1, hl2, hl3, _⟩ := hloc
  have hpts : (built_tess K x N).points.length = N := by
    simpa [built_tess] using hl1
  have hvt : built_vt_list K x N = List.range N := by
    simpa [built_vt_list] using hl2
  have hinfo : ∀ h, h < N → (built_tess K x N).info h = (h : Int) := by
    intro h hh
    exact hl3 h (Nat.zero_le _) (by omega)
  obtain ⟨hg1, hg2, hg3⟩ := insert_ghosts_fresh K hK (ghost_particles x1 N M) N
    (built_tess K x N) hpts
  rw [length_ghost_particles] at hg1 hg2
  have hall : ∀ h, h < N + M →
      (insert_ghosts K (ghost_particles x1 N M) N (built_tess K x N)).info h = (h : Int) := by
    intro h hh
    by_cases hlt : h < N
    · rw [hg3 h hlt, hinfo h hlt]
    · exact hg2 h (by omega) hh
  have hmap : (List.range (N + M)).map
      (insert_ghosts K (ghost_particles x1 N M) N (built_tess K x N)).info
      = (List.range (N + M)).map (fun (k : Nat) => (k : Int)) :=
    List.map_congr_left (fun h hh => hall h (List.mem_range.1 hh))
  refine ⟨_,
    { ptess := some (insert_ghosts K (ghost_particles x1 N M) N (built_tess K x N))
      pvt_list := some (built_vt_list K x N)
      local_num_particles := N
      tot_num_particles := N + M },
    insert_ghosts K (ghost_particles x1 N M) N (built_tess K x N), List.range N,
    by rw [build_initial_tess_eq, hp]; rfl, ?_, rfl, ?_, hg1, hmap, ?_, ?_, ?_⟩
  · simp [update_initial_tess, ghost_particles]
  · exact congrArg some hvt
  · rw [hmap]
    exact (List.nodup_range _).map (fun a b hab => by exact_mod_cast hab)
  · intro i hi
    exact ⟨i, List.getElem?_range hi, hall i (by omega)⟩
  · intro i _ e _ he
    rw [hg1] at he
    rw [hall _ he]
    exact ⟨Int.natCast_nonneg _, by exact_mod_cast he⟩

/-- C19, instance: the six-point configuration, two local generators and four ghosts. -/
theorem tags_after_build_and_augment_witness :
    ((fresh_kernel six_point_table : Kernel ℚ).fresh ∧
      ∀ i < 2, walk (built_tess (fresh_kernel six_point_table) six_point_x 2)
        (built_vt_list (fresh_kernel six_point_table) six_point_x 2) i ≠ []) ∧
    ∃ b st2 tess vt_list,
      build_initial_tess rat_sqrt (fresh_kernel six_point_table) (Tess2d.init 0 0) six_point_x 2
        100 = some b ∧
      update_initial_tess (fresh_kernel six_point_table) b.self six_point_x 4 = some (0, st2) ∧
      st2.ptess = some tess ∧ st2.pvt_list = some vt_list ∧
      tess.points.length = 2 + 4 ∧
      (List.range (2 + 4)).map tess.info = (List.range (2 + 4)).map (fun (k : Nat) => (k : Int)) ∧
      ((List.range (2 + 4)).map tess.info).Nodup ∧
      (∀ i : Nat, i < 2 → ∃ vi, vt_list[i]? = some vi ∧ tess.info vi = (i : Int)) ∧
      (∀ i : Nat, i < 2 → ∀ e ∈ walk tess vt_list i, e.second_vertex < tess.points.length →
        0 ≤ tess.info e.second_vertex ∧ tess.info e.second_vertex < ((2 + 4 : Nat) : Int)) :=
  ⟨⟨fresh_kernel_fresh six_point_table, by decide⟩,
    tags_after_build_and_augment rat_sqrt (fresh_kernel six_point_table) (Tess2d.init 0 0)
      six_point_x six_point_x 2 4 100 (fresh_kernel_fresh six_point_table) (by decide)⟩

/-- C11: for a local generator `i` whose cell is the closed polygon `V` (every
side on the perpendicular bisector of `p_i` and the neighbour behind it, `p_i`
on one side of all sides), the sum over the edges walked around `i` of
`area * normal`, with `area = |p2 - p1|` and `normal = (p_n - p_i)/|p_n - p_i|`
as `extract_geometry` computes them, is the zero vector; for every edge that
emits a face record, `area * normal` is `face_area * face_n` of that record. -/
theorem area_weighted_normals_sum_to_zero (st : Tess2d ℝ) (x : Int → Point ℝ) (tess : Tess ℝ)
    (vt_list : List Nat) (i : Nat) (V : List (Point ℝ))
    (htess : st.ptess = some tess) (hvt : st.pvt_list = some vt_list)
    (hclosed : ∀ j < st.local_num_particles,
      walk tess vt_list j ≠ [] ∧ ∀ e ∈ walk tess vt_list j, e.closed = true)
    (hi : i < st.local_num_particles)
    (hsides : List.Forall₂ (is_cell_side tess x (x i)) (walk tess vt_list i) (sides V))
    (hin : contains_generator (x i) V) :
    ∃ r, extract_geometry Real.sqrt st x = some r ∧ 0 ≤ r.code ∧
      ((walk tess vt_list i).map (fun e => (edge_flux Real.sqrt tess x i e).x)).sum = 0 ∧
      ((walk tess vt_list i).map (fun e => (edge_flux Real.sqrt tess x i e).y)).sum = 0 ∧
      ∀ e ∈ walk tess vt_list i, ∀ f, edge_face Real.sqrt tess x i e = some f →
        f ∈ r.faces ∧
          edge_flux Real.sqrt tess x i e
            = ⟨f.face_area * f.face_n.x, f.face_area * f.face_n.y⟩ := by
  have hex : extract_geometry Real.sqrt st x
      = extract_particles Real.sqrt tess vt_list x (List.range st.local_num_particles) [] [] := by
    simp [extract_geometry, htess, hvt]
  have hgo := extract_particles_go Real.sqrt tess vt_list x (List.range st.local_num_particles)
    [] [] (fun j hj => hclosed j (List.mem_range.1 hj))
  have hsum : ((walk tess vt_list i).map (fun e => (edge_flux Real.sqrt tess x i e).x)).sum = 0 ∧
      ((walk tess vt_list i).map (fun e => (edge_flux Real.sqrt tess x i e).y)).sum = 0 := by
    rcases hin with h | h
    · apply sum_edge_flux_zero tess x i _ V 1 hsides
      intro vw hvw
      rw [abs_of_nonneg (mul_nonneg (by norm_num) (h vw hvw)), one_mul]
    · apply sum_edge_flux_zero tess x i _ V (-1) hsides
      intro vw hvw
      rw [abs_of_nonpos (mul_nonpos_of_nonneg_of_nonpos (by norm_num) (h vw hvw))]
      ring
  refine ⟨_, by rw [hex, hgo], Int.natCast_nonneg _, hsum.1, hsum.2, ?_⟩
  intro e he f hef
  constructor
  · simp only [List.nil_append, List.mem_flatMap, List.mem_range, walk_faces,
      List.mem_filterMap]
    exact ⟨i, hi, e, he, hef⟩
  · unfold edge_face at hef
    cases hd : e.dual with
    | ray => simp [hd] at hef
    | other => simp [hd] at hef
    | segment p1 p2 =>
      by_cases hlt : tess.info e.first_vertex < tess.info e.second_vertex
      · simp only [hd, hlt, if_true, Option.some.injEq] at hef
        subst hef
        simp only [edge_flux, hd]
      · simp [hd, hlt] at hef

/-- C11, instance: the generator at the origin closed by the four ghosts
`(±2, 0)`, `(0, ±2)`; its cell is the square with corners `(±1, ±1)`. -/
theorem area_weighted_normals_sum_to_zero_witness :
    ((square_session : Tess2d ℝ).ptess = some square_tess ∧
      (square_session : Tess2d ℝ).pvt_list = some [0] ∧
      (∀ j < (square_session : Tess2d ℝ).local_num_particles,
        walk (square_tess : Tess ℝ) [0] j ≠ [] ∧
          ∀ e ∈ walk (square_tess : Tess ℝ) [0] j, e.closed = true) ∧
      0 < (square_session : Tess2d ℝ).local_num_particles ∧
      List.Forall₂ (is_cell_side (square_tess : Tess ℝ) square_x (square_x (0 : Nat)))
        (walk (square_tess : Tess ℝ) [0] 0) (sides (square_polygon : List (Point ℝ))) ∧
      contains_generator (square_x (0 : Nat)) (square_polygon : List (Point ℝ))) ∧
    ∃ r, extract_geometry Real.sqrt (square_session : Tess2d ℝ) square_x = some r ∧
      0 ≤ r.code ∧
      ((walk (square_tess : Tess ℝ) [0] 0).map
        (fun e => (edge_flux Real.sqrt square_tess square_x 0 e).x)).sum = 0 ∧
      ((walk (square_tess : Tess ℝ) [0] 0).map
        (fun e => (edge_flux Real.sqrt square_tess square_x 0 e).y)).sum = 0 ∧
      ∀ e ∈ walk (square_tess : Tess ℝ) [0] 0, ∀ f,
        edge_face Real.sqrt square_tess square_x 0 e = some f →
        f ∈ r.faces ∧
          edge_flux Real.sqrt square_tess square_x 0 e
            = ⟨f.face_area * f.face_n.x, f.face_area * f.face_n.y⟩ :=
  ⟨⟨rfl, rfl, square_closed, Nat.zero_lt_one, square_is_cell, square_contains⟩,
    area_weighted_normals_sum_to_zero square_session square_x square_tess [0] 0 square_polygon
      rfl rfl square_closed Nat.zero_lt_one square_is_cell square_contains⟩

/-- C16: for a local generator `i` whose cell is the closed polygon `V` (every
side on the perpendicular bisector of `p_i` and the neighbour behind it, `p_i`
on one side of all sides) of positive area, the offset `dcom[i]` written by
`extract_geometry`, `(cx/vol, cy/vol) - p_i`, is the area centroid of `V`
minus `p_i`. -/
theorem dcom_eq_centroid_offset (st : Tess2d ℝ) (x : Int → Point ℝ) (tess : Tess ℝ)
    (vt_list : List Nat) (i : Nat) (V : List (Point ℝ))
    (htess : st.ptess = some tess) (hvt : st.pvt_list = some vt_list)
    (hclosed : ∀ j < st.local_num_particles,
      walk tess vt_list j ≠ [] ∧ ∀ e ∈ walk tess vt_list j, e.closed = true)
    (hi : i < st.local_num_particles)
    (hsides : List.Forall₂ (is_cell_side tess x (x i)) (walk tess vt_list i) (sides V))
    (hin : contains_generator (x i) V)
    (hvol : 0 < shoelace_area V) :
    ∃ r, extract_geometry Real.sqrt st x = some r ∧ 0 ≤ r.code ∧
      (r.cells[i]?).map (fun c => c.dcom)
        = some ⟨(polygon_centroid V).x - (x i).x, (polygon_centroid V).y - (x i).y⟩ := by
  have hex : extract_geometry Real.sqrt st x
      = extract_particles Real.sqrt tess vt_list x (List.range st.local_num_particles) [] [] := by
    simp [extract_geometry, htess, hvt]
  have hgo := extract_particles_go Real.sqrt tess vt_list x (List.range st.local_num_particles)
    [] [] (fun j hj => hclosed j (List.mem_range.1 hj))
  have hS : ((sides V).map (fun vw => vw.1.x * vw.2.y - vw.2.x * vw.1.y)).sum ≠ 0 := by
    intro h0
    unfold shoelace_area at hvol
    rw [h0] at hvol
    simp at hvol
  have key : ∃ s : ℝ, s ≠ 0 ∧
      ∀ vw ∈ sides V, abs (turn (x i) vw.1 vw.2) = s * turn (x i) vw.1 vw.2 := by
    rcases hin with h | h
    · exact ⟨1, one_ne_zero, fun vw hvw => by rw [abs_of_nonneg (h vw hvw), one_mul]⟩
    · exact ⟨-1, by norm_num, fun vw hvw => by rw [abs_of_nonpos (h vw hvw)]; ring⟩
  obtain ⟨s, hs0, hs⟩ := key
  obtain ⟨h1, h2, h3⟩ := walk_sums_of_cell tess x i _ V s hsides hs
  refine ⟨_, by rw [hex, hgo], Int.natCast_nonneg _, ?_⟩
  simp only [List.nil_append, List.getElem?_map, List.getElem?_range hi, Option.map_some',
    walk_cell, walk_vol, walk_cx, walk_cy, Option.some.injEq, polygon_centroid, h1, h2, h3,
    Point.mk.injEq]
  constructor
  · field_simp
    ring
  · field_simp
    ring

/-- C16, instance: the generator at the origin closed by the four ghosts
`(±2, 0)`, `(0, ±2)`; its cell is the square with corners `(±1, ±1)`. -/
theorem dcom_eq_centroid_offset_witness :
    ((square_session : Tess2d ℝ).ptess = some square_tess ∧
      (square_session : Tess2d ℝ).pvt_list = some [0] ∧
      (∀ j < (square_session : Tess2d ℝ).local_num_particles,
        walk (square_tess : Tess ℝ) [0] j ≠ [] ∧
          ∀ e ∈ walk (square_tess : Tess ℝ) [0] j, e.closed = true) ∧
      0 < (square_session : Tess2d ℝ).local_num_particles ∧
      List.Forall₂ (is_cell_side (square_tess : Tess ℝ) square_x (square_x (0 : Nat)))
        (walk (square_tess : Tess ℝ) [0] 0) (sides (square_polygon : List (Point ℝ))) ∧
      contains_generator (square_x (0 : Nat)) (square_polygon : List (Point ℝ)) ∧
      0 < shoelace_area (square_polygon : List (Point ℝ))) ∧
    ∃ r, extract_geometry Real.sqrt (square_session : Tess2d ℝ) square_x = some r ∧
      0 ≤ r.code ∧
      (r.cells[0]?).map (fun c => c.dcom)
        = some ⟨(polygon_centroid (square_polygon : List (Point ℝ))).x
                  - ((square_x (0 : Nat)) : Point ℝ).x,
                (polygon_centroid (square_polygon : List (Point ℝ))).y
                  - ((square_x (0 : Nat)) : Point ℝ).y⟩ :=
  ⟨⟨rfl, rfl, square_closed, Nat.zero_lt_one, square_is_cell, square_contains,
      square_area_pos⟩,
    dcom_eq_centroid_offset square_session square_x square_tess [0] 0 square_polygon rfl rfl
      square_closed Nat.zero_lt_one square_is_cell square_contains square_area_pos⟩

end Phd
